import Mathlib

/-!
Verification of the vsphere-prow-summary repository.

Shallow embedding of the Python sources `vsphere_monitor/analyzer.py`,
`vsphere_monitor/fetcher.py`, `vsphere_monitor/formatters.py` and
`vsphere_monitor/tui.py`.  Python strings are modelled as `List Char`
(job names are ASCII), timestamps as integers (microseconds on a fixed
epoch), float division as rational division, and raised exceptions as
`Except`/`Option` results.
-/

/-- Generic helper: `startsWith pat l` is Python's `l.startswith(pat)` on
character lists (also the matcher for an exact literal at the current
regex position). -/
def startsWith : List Char → List Char → Bool
  | [], _ => true
  | _ :: _, [] => false
  | p :: ps, c :: cs => p = c && startsWith ps cs

/-- Generic helper: `containsSub pat l` is Python's `pat in l` substring
test on character lists. -/
def containsSub (pat : List Char) : List Char → Bool
  | [] => startsWith pat []
  | c :: cs => startsWith pat (c :: cs) || containsSub pat cs

theorem startsWith_iff (pat l : List Char) :
    startsWith pat l = true ↔ ∃ t, l = pat ++ t := by
  induction pat generalizing l with
  | nil => simp [startsWith]
  | cons p ps ih =>
    cases l with
    | nil => simp [startsWith]
    | cons c cs =>
      simp only [startsWith, Bool.and_eq_true, decide_eq_true_eq, ih, List.cons_append,
        List.cons.injEq]
      constructor
      · rintro ⟨rfl, t, rfl⟩; exact ⟨t, rfl, rfl⟩
      · rintro ⟨t, rfl, rfl⟩; exact ⟨rfl, t, rfl⟩

theorem containsSub_iff (pat l : List Char) :
    containsSub pat l = true ↔ ∃ s t, l = s ++ pat ++ t := by
  induction l with
  | nil =>
    simp only [containsSub, startsWith_iff]
    constructor
    · rintro ⟨t, h⟩; exact ⟨[], t, h⟩
    · rintro ⟨s, t, h⟩
      rcases List.append_eq_nil.mp (List.append_eq_nil.mp h.symm).1 with ⟨rfl, rfl⟩
      exact ⟨t, h⟩
  | cons c cs ih =>
    simp only [containsSub, Bool.or_eq_true, startsWith_iff, ih]
    constructor
    · rintro (⟨t, h⟩ | ⟨s, t, h⟩)
      · exact ⟨[], t, by simpa using h⟩
      · exact ⟨c :: s, t, by simp [h]⟩
    · rintro ⟨s, t, h⟩
      cases s with
      | nil => exact Or.inl ⟨t, by simpa using h⟩
      | cons a s =>
        simp only [List.cons_append, List.cons.injEq] at h
        exact Or.inr ⟨s, t, h.2⟩

/-- The last `n` elements of a list, in order (all of them when the list is
shorter).  This is the contents of a Python `deque(maxlen=n)` after the
list has been appended element by element. -/
def lastN (n : ℕ) (l : List α) : List α := (l.reverse.take n).reverse

theorem length_lastN (n : ℕ) (l : List α) : (lastN n l).length ≤ n := by
  simp only [lastN, List.length_reverse]
  exact (List.length_take_le n l.reverse)

theorem take_append_take (n : ℕ) (a b : List α) :
    (b ++ a.take n).take n = (b ++ a).take n := by
  rcases le_or_lt n b.length with h | h
  · rw [List.take_append_eq_append_take, List.take_append_eq_append_take]
    have : n - b.length = 0 := by omega
    simp [this]
  · rw [List.take_append_eq_append_take, List.take_append_eq_append_take,
      List.take_take]
    have : min (n - b.length) n = n - b.length := by omega
    rw [this]

theorem lastN_append_lastN (n : ℕ) (a b : List α) :
    lastN n (lastN n a ++ b) = lastN n (a ++ b) := by
  simp only [lastN, List.reverse_append, List.reverse_reverse]
  rw [take_append_take]

theorem lastN_lastN (n : ℕ) (a : List α) : lastN n (lastN n a) = lastN n a := by
  have h := lastN_append_lastN n a []
  simpa using h

/-- Strict lexicographic comparison of character lists by code point:
Python's `<` on `str`.  (Defined by structural recursion so that concrete
instances reduce in the kernel; Mathlib's `String` order is
iterator-based and does not.) -/
def listLtb : List Char → List Char → Bool
  | [], [] => false
  | [], _ :: _ => true
  | _ :: _, [] => false
  | a :: as, b :: bs => if a = b then listLtb as bs else decide (a < b)

theorem listLtb_trans {a b c : List Char} (h1 : listLtb a b = true)
    (h2 : listLtb b c = true) : listLtb a c = true := by
  induction a generalizing b c with
  | nil =>
    cases b with
    | nil => simp [listLtb] at h1
    | cons b bs => cases c with
      | nil => simp [listLtb] at h2
      | cons c cs => simp [listLtb]
  | cons a as ih =>
    cases b with
    | nil => simp [listLtb] at h1
    | cons b bs =>
      cases c with
      | nil => simp [listLtb] at h2
      | cons c cs =>
        simp only [listLtb] at h1 h2 ⊢
        by_cases hab : a = b
        · subst hab
          simp only [if_pos rfl] at h1
          by_cases hbc : a = c
          · subst hbc
            simp only [if_pos rfl] at h2 ⊢
            exact ih h1 h2
          · simp only [if_neg hbc] at h2 ⊢
            exact h2
        · simp only [if_neg hab, decide_eq_true_eq] at h1
          by_cases hbc : b = c
          · subst hbc
            simp only [if_neg hab, decide_eq_true_eq]
            exact h1
          · simp only [if_neg hbc, decide_eq_true_eq] at h2
            have hac : a < c := lt_trans h1 h2
            simp only [if_neg (ne_of_lt hac), decide_eq_true_eq]
            exact hac

theorem listLtb_asymm {a b : List Char} (h : listLtb a b = true) :
    listLtb b a = false := by
  induction a generalizing b with
  | nil =>
    cases b with
    | nil => simp [listLtb] at h
    | cons b bs => simp [listLtb]
  | cons a as ih =>
    cases b with
    | nil => simp [listLtb] at h
    | cons b bs =>
      simp only [listLtb] at h ⊢
      by_cases hab : a = b
      · subst hab
        simp only [if_pos rfl] at h ⊢
        exact ih h
      · simp only [if_neg hab, decide_eq_true_eq] at h
        simp only [if_neg (Ne.symm hab), decide_eq_false_iff_not]
        exact not_lt_of_lt h

theorem listLtb_connex {a b : List Char} (h : a ≠ b) :
    listLtb a b = true ∨ listLtb b a = true := by
  induction a generalizing b with
  | nil =>
    cases b with
    | nil => exact absurd rfl h
    | cons b bs => left; simp [listLtb]
  | cons a as ih =>
    cases b with
    | nil => right; simp [listLtb]
    | cons b bs =>
      by_cases hab : a = b
      · subst hab
        have hne : as ≠ bs := fun hh => h (by rw [hh])
        rcases ih hne with h' | h'
        · left; simpa [listLtb] using h'
        · right; simpa [listLtb] using h'
      · rcases lt_or_gt_of_ne hab with h' | h'
        · left; simp [listLtb, if_neg hab, h']
        · right; simp [listLtb, if_neg (Ne.symm hab), h']

theorem listLtb_eq_of_not {a b : List Char} (h1 : listLtb a b = false)
    (h2 : listLtb b a = false) : a = b := by
  by_contra hne
  rcases listLtb_connex hne with h | h
  · rw [h1] at h; exact Bool.false_ne_true h
  · rw [h2] at h; exact Bool.false_ne_true h

/-- Python's `<` on strings (code-point lexicographic). -/
def strLt (a b : String) : Prop := listLtb a.data b.data = true

/-- Python's `<=` on strings, as used by `sorted`/`list.sort` on key
tuples (total preorder: `a <= b` iff not `b < a`). -/
def strLe (a b : String) : Prop := listLtb b.data a.data = false

instance : DecidableRel strLt := fun a b => by unfold strLt; infer_instance

instance : DecidableRel strLe := fun a b => by unfold strLe; infer_instance

theorem strLt_trans {a b c : String} (h1 : strLt a b) (h2 : strLt b c) :
    strLt a c := listLtb_trans h1 h2

theorem strEq_of_not_lt {a b : String} (h1 : ¬ strLt a b) (h2 : ¬ strLt b a) :
    a = b := by
  have e1 : listLtb a.data b.data = false := by simpa [strLt] using h1
  have e2 : listLtb b.data a.data = false := by simpa [strLt] using h2
  have := listLtb_eq_of_not e1 e2
  cases a; cases b; exact congrArg String.mk this

theorem strLe_iff_not_lt {a b : String} : strLe a b ↔ ¬ strLt b a := by
  unfold strLe strLt
  simp

theorem strLe_total (a b : String) : strLe a b ∨ strLe b a := by
  rw [strLe_iff_not_lt, strLe_iff_not_lt]
  by_cases h : strLt b a
  · right
    intro h'
    have ha := listLtb_asymm h
    rw [strLt] at h'
    rw [h'] at ha
    exact Bool.noConfusion ha
  · left; exact h

theorem strLe_trans {a b c : String} (h1 : strLe a b) (h2 : strLe b c) :
    strLe a c := by
  rw [strLe_iff_not_lt] at h1 h2 ⊢
  intro hca
  by_cases hab : strLt a b
  · exact h2 (strLt_trans hca hab)
  · by_cases hba : strLt b a
    · exact h1 hba
    · have hEq : a = b := strEq_of_not_lt hab hba
      subst hEq
      exact h2 hca

/-!
## Embedding of `vsphere_monitor/fetcher.py` (tail log fetch)

The streaming loop of `fetch_build_log` repeatedly splits the running
buffer on the first `"\n"` and appends each completed line to a
`deque(maxlen=max_lines)`; after the stream ends a non-empty final buffer
(a partial line without a trailing newline) is appended too.
-/

/-- Split a character stream into (complete lines, trailing partial line):
`splitNl s = (ls, r)` where `ls` are the newline-terminated segments in
order and `r` is the text after the last newline.  This is what the
source's `while "\n" in buf: line, buf = buf.split("\n", 1)` loop emits. -/
def splitNl : List Char → List (List Char) × List Char
  | [] => ([], [])
  | c :: cs =>
    let r := splitNl cs
    if c = '\n' then ([] :: r.1, r.2)
    else
      match r.1 with
      | [] => ([], c :: r.2)
      | l :: t => ((c :: l) :: t, r.2)

/-- `deque(maxlen=cap).append(x)`: keep the most recent `cap` entries. -/
def pushCap (cap : ℕ) (d : List α) (x : α) : List α := lastN cap (d ++ [x])

/-- One `for chunk in resp.iter_text()` iteration of `fetch_build_log`:
append the chunk to the buffer, move the completed lines into the deque,
keep the partial line as the new buffer. -/
def logChunkStep (cap : ℕ) (st : List (List Char) × List Char)
    (chunk : List Char) : List (List Char) × List Char :=
  let p := splitNl (st.2 ++ chunk)
  (p.1.foldl (pushCap cap) st.1, p.2)

/-- The full tail-retention loop of `fetch_build_log` over the incoming
chunk sequence, including the final `if buf: tail.append(buf)`. -/
def logTailLoop (cap : ℕ) (chunks : List (List Char)) : List (List Char) :=
  let st := chunks.foldl (logChunkStep cap) ([], [])
  if st.2 = [] then st.1 else pushCap cap st.1 st.2

/-- The logical line sequence of a whole character stream: complete
newline-terminated lines, plus the final partial line when non-empty. -/
def streamLines (s : List Char) : List (List Char) :=
  let p := splitNl s
  if p.2 = [] then p.1 else p.1 ++ [p.2]

theorem splitNl_append (a b : List Char) :
    splitNl (a ++ b) =
      match (splitNl b).1 with
      | [] => ((splitNl a).1, (splitNl a).2 ++ (splitNl b).2)
      | h :: t => ((splitNl a).1 ++ ((splitNl a).2 ++ h) :: t, (splitNl b).2) := by
  induction a with
  | nil =>
    cases hb : (splitNl b).1 with
    | nil =>
      simp only [List.nil_append, splitNl, hb]
      exact Prod.ext hb rfl
    | cons h t =>
      simp only [List.nil_append, splitNl, hb, List.nil_append]
      exact Prod.ext hb rfl
  | cons c a ih =>
    by_cases hc : c = '\n'
    · cases hb : (splitNl b).1 with
      | nil => simp [splitNl, hc, ih, hb]
      | cons h t => simp [splitNl, hc, ih, hb]
    · cases hb : (splitNl b).1 with
      | nil =>
        cases ha : (splitNl a).1 with
        | nil => simp [splitNl, hc, ih, hb, ha]
        | cons l t' => simp [splitNl, hc, ih, hb, ha]
      | cons h t =>
        cases ha : (splitNl a).1 with
        | nil => simp [splitNl, hc, ih, hb, ha]
        | cons l t' => simp [splitNl, hc, ih, hb, ha]

theorem splitNl_rest_idem (s : List Char) :
    splitNl (splitNl s).2 = ([], (splitNl s).2) := by
  induction s with
  | nil => simp [splitNl]
  | cons c cs ih =>
    by_cases hc : c = '\n'
    · simp [splitNl, hc, ih]
    · cases h1 : (splitNl cs).1 with
      | nil => simp [splitNl, hc, h1, ih]
      | cons l t => simp [splitNl, hc, h1, ih]

theorem foldl_pushCap (cap : ℕ) (d : List α) (ls : List α) :
    ls.foldl (pushCap cap) (lastN cap d) = lastN cap (d ++ ls) := by
  induction ls generalizing d with
  | nil => simp
  | cons x ls ih =>
    simp only [List.foldl_cons]
    have hp : pushCap cap (lastN cap d) x = lastN cap (d ++ [x]) := by
      simp only [pushCap, lastN_append_lastN]
    rw [hp, ih (d ++ [x])]
    simp

theorem logTail_foldl (cap : ℕ) (chunks : List (List Char)) :
    chunks.foldl (logChunkStep cap) ([], []) =
      (lastN cap (splitNl chunks.flatten).1, (splitNl chunks.flatten).2) := by
  induction chunks using List.reverseRecOn with
  | nil => simp [splitNl, lastN]
  | append_singleton l c ih =>
    rw [List.foldl_append, ih]
    simp only [List.foldl_cons, List.foldl_nil]
    have hflat : (l ++ [c]).flatten = l.flatten ++ c := by simp
    rw [hflat]
    have hsplit2 : splitNl (splitNl l.flatten).2 = ([], (splitNl l.flatten).2) :=
      splitNl_rest_idem l.flatten
    have happ := splitNl_append (splitNl l.flatten).2 c
    have happ2 := splitNl_append l.flatten c
    cases hc1 : (splitNl c).1 with
    | nil =>
      rw [hc1] at happ happ2
      simp only [hsplit2] at happ
      simp only [logChunkStep, happ, happ2, List.foldl_nil]
    | cons h t =>
      rw [hc1] at happ happ2
      simp only [hsplit2, List.nil_append] at happ
      simp only [logChunkStep, happ, happ2]
      rw [foldl_pushCap]

theorem logTailLoop_eq (cap : ℕ) (chunks : List (List Char)) :
    logTailLoop cap chunks = lastN cap (streamLines chunks.flatten) := by
  unfold logTailLoop streamLines
  rw [logTail_foldl]
  by_cases h2 : (splitNl chunks.flatten).2 = []
  · simp [h2]
  · simp only [if_neg h2]
    simp [pushCap, lastN_append_lastN]

/-- The fixed marker of `prow_url_to_build_log_url`. -/
def gsMarker : List Char := "/view/gs/".data

/-- `prow_url.find(marker)` followed by the slice
`prow_url[idx + len(marker):]`: the text after the first occurrence of
the marker, or `none` when the marker is absent (`find` returns `-1`). -/
def afterMarker : List Char → Option (List Char)
  | [] => none
  | c :: cs =>
    if startsWith gsMarker (c :: cs) then some ((c :: cs).drop gsMarker.length)
    else afterMarker cs

/-- `fetcher.prow_url_to_build_log_url`. -/
def prow_url_to_build_log_url (prow_url : List Char) : Option (List Char) :=
  (afterMarker prow_url).map
    (fun gcs_path => "https://storage.googleapis.com/".data ++ gcs_path ++ "/build-log.txt".data)

/-- The failure modes of `fetcher.fetch_build_log`: a `ValueError` when the
URL cannot be converted, an `httpx.HTTPStatusError` (status code) from
`raise_for_status` on fetch failure. -/
inductive FetchError where
  | valueError
  | httpStatusError (code : ℕ)
deriving DecidableEq

/-- `fetcher.fetch_build_log`.  The network interaction is a parameter:
`resp` is either the HTTP error status raised by `raise_for_status` or
the streamed text chunks of `resp.iter_text()`. -/
def fetch_build_log (prow_url : List Char) (resp : Except ℕ (List (List Char)))
    (max_lines : ℕ) : Except FetchError (List Char × List (List Char)) :=
  match prow_url_to_build_log_url prow_url with
  | none => .error .valueError
  | some log_url =>
    match resp with
    | .error code => .error (.httpStatusError code)
    | .ok chunks => .ok (log_url, logTailLoop max_lines chunks)

theorem afterMarker_none_iff (l : List Char) :
    afterMarker l = none ↔ containsSub gsMarker l = false := by
  induction l with
  | nil => simp [afterMarker, containsSub, startsWith, gsMarker]
  | cons c cs ih =>
    simp only [afterMarker, containsSub]
    by_cases h : startsWith gsMarker (c :: cs) = true
    · simp [h]
    · have h' : startsWith gsMarker (c :: cs) = false := by
        simpa using h
      simp [h', ih]

/-!
## Embedding of `vsphere_monitor/analyzer.py`

### Version extraction

`_VERSION_RE = re.compile(r"(?:^|-)(\d+\.\d+)(?:-|$)")` and
`_extract_ocp_version` returns `findall(...)[-1]` or `"unknown"`.
The regex engine is deterministic on this pattern: the digit runs are
maximal (backing off a greedy `\d+` can only land on another digit), so
one attempt at a fixed position is the function `versionMatchHere`, and
`re.findall` is the non-overlapping left-to-right scan `versionScan`
(a match consumes its right-bounding hyphen, and the scan resumes after
it; `^` can only fire at position 0).
-/

/-- One attempt of `_VERSION_RE` with the left bound (start of string or a
hyphen) already consumed: parse `\d+\.\d+(?:-|$)`, returning the captured
group and the remainder of the string after the match. -/
def versionMatchHere (l : List Char) : Option (List Char × List Char) :=
  let d1 := l.takeWhile Char.isDigit
  if d1 = [] then none
  else
    match l.dropWhile Char.isDigit with
    | '.' :: r2 =>
      let d2 := r2.takeWhile Char.isDigit
      if d2 = [] then none
      else
        match r2.dropWhile Char.isDigit with
        | [] => some (d1 ++ '.' :: d2, [])
        | '-' :: r4 => some (d1 ++ '.' :: d2, r4)
        | _ => none
    | _ => none

/-- The scan of `re.findall` at positions after 0: try the `-`-bounded
alternative at each position, and on a match resume after the consumed
text.  Fuel-based so that concrete calls reduce in the kernel; `fuel ≥
length of the list` is always sufficient. -/
def versionScan : ℕ → List Char → List (List Char)
  | 0, _ => []
  | _ + 1, [] => []
  | fuel + 1, c :: cs =>
    if c = '-' then
      match versionMatchHere cs with
      | some (v, r) => v :: versionScan fuel r
      | none => versionScan fuel cs
    else versionScan fuel cs

/-- `re.findall(_VERSION_RE, l)`: the `^`-anchored alternative can fire
only at position 0, then the hyphen-bounded scan. -/
def versionFindall (l : List Char) : List (List Char) :=
  match versionMatchHere l with
  | some (v, r) => v :: versionScan l.length r
  | none => versionScan l.length l

/-- `analyzer._extract_ocp_version`. -/
def _extract_ocp_version (job_name : String) : String :=
  match (versionFindall job_name.data).getLast? with
  | none => "unknown"
  | some v => String.mk v

/-- Spec-side definition (claim C3): the matches at *every* hyphen/start
position, overlapping allowed — "all substrings of the name that match a
dotted two-component numeric pattern bounded on the left by the string
start or a hyphen and on the right by a hyphen or the string end", in
position order. -/
def versionScanAll : List Char → List (List Char)
  | [] => []
  | c :: cs =>
    (if c = '-' then ((versionMatchHere cs).map Prod.fst).toList else [])
      ++ versionScanAll cs

/-- Spec-side definition (claim C3): all bounded matches of the whole
string, including the start-of-string-bounded one. -/
def versionAllMatches (l : List Char) : List (List Char) :=
  ((versionMatchHere l).map Prod.fst).toList ++ versionScanAll l

/-- Spec-side definition (claim C3, following the spec's words): "the last
of all substrings of the name that match a dotted two-component numeric
pattern bounded on the left by the string start or a hyphen and on the
right by a hyphen or the string end", or `"unknown"` when there is none. -/
def specVersionLastOfAll (job_name : String) : String :=
  match (versionAllMatches job_name.data).getLast? with
  | none => "unknown"
  | some v => String.mk v

/-!
### Variant extraction
-/

/-- The prefix-stripping loop of `analyzer._extract_variant`: strip the
first matching known prefix (at most one, `break` after a match). -/
def variantStrip (name : List Char) : List Char :=
  if startsWith "periodic-ci-openshift-release-main-".data name then
    name.drop "periodic-ci-openshift-release-main-".data.length
  else if startsWith "periodic-ci-openshift-".data name then
    name.drop "periodic-ci-openshift-".data.length
  else if startsWith "openshift-".data name then
    name.drop "openshift-".data.length
  else if startsWith "release-".data name then
    name.drop "release-".data.length
  else name

/-- `analyzer._extract_variant`. -/
def _extract_variant (job_name : String) : String :=
  let name := variantStrip job_name.data
  if containsSub "upgrade".data name then "upgrade"
  else if containsSub "serial".data name && containsSub "techpreview".data name then "tp-serial"
  else if containsSub "techpreview".data name then "techpreview"
  else if containsSub "serial".data name then "serial"
  else if containsSub "upi".data name then "upi"
  else if containsSub "static".data name then "static"
  else if containsSub "csi".data name then "csi"
  else if containsSub "zones".data name then "zones"
  else if containsSub "assisted".data name then "assisted"
  else if containsSub "operator".data name then "operator"
  else if containsSub "prfinder".data name then "prfinder"
  else "e2e"

/-- The ordered marker list of `_extract_variant`'s substring checks. -/
def variantMarkers : List (List Char) :=
  ["upgrade".data, "serial".data, "techpreview".data, "upi".data, "static".data,
   "csi".data, "zones".data, "assisted".data, "operator".data, "prfinder".data]

/-!
### Timestamp parsing

`analyzer._parse_time` returns `None` for a falsy input (absent key or
empty string) and otherwise calls `datetime.fromisoformat` on the input
with every `"Z"` replaced by `"+00:00"`; `fromisoformat` *raises*
`ValueError` on an unparsable string.  `fromisoformat` is Python stdlib
(not repository code); it is modelled here on the extended ISO-8601
shapes Prow emits: `YYYY-MM-DD[<any single separator char>HH:MM[:SS
[.f+]]][±HH:MM]`, with calendar/range validation, evaluating to an
instant in microseconds (offset applied).  Compact undashed dates, week
dates and offset seconds are outside the modelled subset.
-/

/-- Read exactly `n` digit characters, accumulating their value. -/
def readDigitsAux : ℕ → ℕ → List Char → Option (ℕ × List Char)
  | 0, acc, l => some (acc, l)
  | n + 1, acc, c :: cs =>
    if c.isDigit then readDigitsAux n (acc * 10 + (c.toNat - 48)) cs else none
  | _ + 1, _, [] => none

def readN (n : ℕ) (l : List Char) : Option (ℕ × List Char) := readDigitsAux n 0 l

def expectChar (c : Char) : List Char → Option (List Char)
  | x :: xs => if x = c then some xs else none
  | [] => none

def digitsVal (l : List Char) : ℕ := l.foldl (fun a c => a * 10 + (c.toNat - 48)) 0

/-- Fractional seconds digits, scaled to microseconds (first six digits,
right-padded with zeros). -/
def fracMicros (ds : List Char) : ℕ :=
  digitsVal (ds.take 6 ++ List.replicate (6 - ds.length) '0')

def isLeapYear (y : ℕ) : Bool := (y % 4 == 0 && !(y % 100 == 0)) || y % 400 == 0

def daysInMonth (y m : ℕ) : ℕ :=
  if m = 2 then (if isLeapYear y then 29 else 28)
  else if m = 4 ∨ m = 6 ∨ m = 9 ∨ m = 11 then 30
  else 31

/-- Days since 1970-01-01 of a civil date (standard civil-calendar
conversion; all intermediate divisions are on non-negative numbers). -/
def daysFromCivil (y m d : ℕ) : ℤ :=
  let y' : ℕ := if m ≤ 2 then y - 1 else y
  let era : ℕ := y' / 400
  let yoe : ℕ := y' - era * 400
  let mp : ℕ := if 2 < m then m - 3 else m + 9
  let doy : ℕ := (153 * mp + 2) / 5 + d - 1
  let doe : ℕ := yoe * 365 + yoe / 4 - yoe / 100 + doy
  (era : ℤ) * 146097 + (doe : ℤ) - 719468

def civilMicros (y mo d h mi s us : ℕ) : ℤ :=
  daysFromCivil y mo d * 86400000000 + (h : ℤ) * 3600000000 + (mi : ℤ) * 60000000
    + (s : ℤ) * 1000000 + (us : ℤ)

def parseOffsetMinutes (l : List Char) : Option ℤ :=
  match readN 2 l with
  | none => none
  | some (oh, r1) =>
    match expectChar ':' r1 with
    | none => none
    | some r2 =>
      match readN 2 r2 with
      | none => none
      | some (om, r3) =>
        if r3 = [] ∧ oh < 24 ∧ om < 60 then some ((oh : ℤ) * 60 + om) else none

/-- Optional `:SS[.f+]` part: (seconds, microseconds, rest). -/
def parseSecFrac (l : List Char) : Option (ℕ × ℕ × List Char) :=
  match l with
  | ':' :: r =>
    match readN 2 r with
    | none => none
    | some (s, r2) =>
      match r2 with
      | '.' :: rf =>
        let ds := rf.takeWhile Char.isDigit
        if ds = [] then none
        else some (s, fracMicros ds, rf.dropWhile Char.isDigit)
      | _ => some (s, 0, r2)
  | _ => some (0, 0, l)

/-- Optional UTC-offset tail: minutes east of UTC. -/
def parseOffsetPart (l : List Char) : Option ℤ :=
  match l with
  | [] => some 0
  | '+' :: r => parseOffsetMinutes r
  | '-' :: r => (parseOffsetMinutes r).map Neg.neg
  | _ => none

/-- Model of Python's `datetime.fromisoformat` (see the section comment
for the modelled subset): `none` models a raised `ValueError`, `some t`
the parsed instant in microseconds since the epoch. -/
def fromisoformat (l : List Char) : Option ℤ :=
  match readN 4 l with
  | none => none
  | some (y, r1) =>
    match expectChar '-' r1 with
    | none => none
    | some r2 =>
      match readN 2 r2 with
      | none => none
      | some (mo, r3) =>
        match expectChar '-' r3 with
        | none => none
        | some r4 =>
          match readN 2 r4 with
          | none => none
          | some (d, r5) =>
            if y < 1 ∨ mo < 1 ∨ 12 < mo ∨ d < 1 ∨ daysInMonth y mo < d then none
            else
              match r5 with
              | [] => some (civilMicros y mo d 0 0 0 0)
              | _sep :: r6 =>
                match readN 2 r6 with
                | none => none
                | some (h, r7) =>
                  match expectChar ':' r7 with
                  | none => none
                  | some r8 =>
                    match readN 2 r8 with
                    | none => none
                    | some (mi, r9) =>
                      match parseSecFrac r9 with
                      | none => none
                      | some (s, us, r10) =>
                        match parseOffsetPart r10 with
                        | none => none
                        | some off =>
                          if 23 < h ∨ 59 < mi ∨ 59 < s then none
                          else some (civilMicros y mo d h mi s us - off * 60000000)

/-- `ts.replace("Z", "+00:00")` (the needle is a single character, so the
replacement is per-character). -/
def replaceZ (l : List Char) : List Char :=
  (l.map (fun c => if c = 'Z' then "+00:00".data else [c])).flatten

/-- `analyzer._parse_time`: `.ok none` for a falsy input, `.ok (some t)`
on success, `.error ()` models the `ValueError` raised by
`datetime.fromisoformat` on an unparsable non-empty string. -/
def _parse_time (ts : Option String) : Except Unit (Option ℤ) :=
  match ts with
  | none => .ok none
  | some s =>
    if s = "" then .ok none
    else
      match fromisoformat (replaceZ s.data) with
      | some t => .ok (some t)
      | none => .error ()

instance {ε α : Type} [DecidableEq ε] [DecidableEq α] :
    DecidableEq (Except ε α) := fun a b =>
  match a, b with
  | .error e, .error e' => decidable_of_iff (e = e') (by simp)
  | .ok x, .ok y => decidable_of_iff (x = y) (by simp)
  | .error _, .ok _ => isFalse (fun h => Except.noConfusion h)
  | .ok _, .error _ => isFalse (fun h => Except.noConfusion h)

/-- `analyzer.JobRun` (timestamps already parsed to instants). -/
structure JobRun where
  job : String
  state : String
  start_time : ℤ
  completion_time : Option ℤ
  url : String
  build_id : String
deriving DecidableEq

/-- One element of the raw document's `items` list, with the fields the
extractor reads; `none` models an absent key (`dict.get`). -/
structure RawItem where
  spec_type : Option String
  job : Option String
  state : Option String
  startTime : Option String
  completionTime : Option String
  url : Option String
  build_id : Option String
deriving DecidableEq

/-- `analyzer.extract_vsphere_periodic` over the raw document's `items`;
`.error ()` models the `ValueError` propagating out of `_parse_time`. -/
def extract_vsphere_periodic : List RawItem → Except Unit (List JobRun)
  | [] => .ok []
  | item :: rest =>
    if item.spec_type ≠ some "periodic" then extract_vsphere_periodic rest
    else
      let job_name := item.job.getD ""
      if containsSub "vsphere".data (job_name.data.map Char.toLower) = false then
        extract_vsphere_periodic rest
      else
        match _parse_time item.startTime with
        | .error e => .error e
        | .ok none => extract_vsphere_periodic rest
        | .ok (some start) =>
          match _parse_time item.completionTime with
          | .error e => .error e
          | .ok ct =>
            match extract_vsphere_periodic rest with
            | .error e => .error e
            | .ok runs =>
              .ok (⟨job_name, item.state.getD "unknown", start, ct,
                    item.url.getD "", item.build_id.getD ""⟩ :: runs)

/-- `analyzer.JobSummary` (stored fields; the derived metrics are the
accessor functions below). -/
structure JobSummary where
  job : String
  ocp_version : String
  job_variant : String
  runs : List JobRun
deriving DecidableEq

/-- `JobSummary.latest_run` is `self.runs[0]`; `none` models the
`IndexError` raised on an empty `runs` list. -/
def JobSummary.latest_run (s : JobSummary) : Option JobRun := s.runs.head?

def JobSummary.latest_state (s : JobSummary) : Option String :=
  s.latest_run.map JobRun.state

def JobSummary.latest_url (s : JobSummary) : Option String :=
  s.latest_run.map JobRun.url

def JobSummary.total_runs (s : JobSummary) : ℕ := s.runs.length

def JobSummary.failure_count (s : JobSummary) : ℕ :=
  s.runs.countP (fun r => decide (r.state = "failure"))

/-- `JobSummary.failure_rate` (float division modelled in `ℚ`). -/
def JobSummary.failure_rate (s : JobSummary) : ℚ :=
  if s.runs = [] then 0 else (s.failure_count : ℚ) / (s.total_runs : ℚ)

/-- `job_runs.sort(key=lambda r: r.start_time, reverse=True)`: the stable
descending order on start times. -/
def runRecentFirst (a b : JobRun) : Prop := b.start_time ≤ a.start_time

instance : DecidableRel runRecentFirst := fun a b => by
  unfold runRecentFirst; infer_instance

instance : IsTotal JobRun runRecentFirst :=
  ⟨fun a b => le_total b.start_time a.start_time⟩

instance : IsTrans JobRun runRecentFirst :=
  ⟨fun _ _ _ h1 h2 => le_trans h2 h1⟩

instance : IsTotal String strLe := ⟨strLe_total⟩

instance : IsTrans String strLe := ⟨fun _ _ _ => strLe_trans⟩

/-- `analyzer.aggregate`: group by exact job name (each group keeps the
input order, i.e. is the sublist of runs with that name), iterate the
groups in ascending key order (`sorted(by_job.items())`), sort each
group's runs most-recent-first (stable), and classify the job name. -/
def aggregate (runs : List JobRun) : List JobSummary :=
  let keys := List.insertionSort strLe ((runs.map JobRun.job).dedup)
  keys.map (fun job_name =>
    { job := job_name
      ocp_version := _extract_ocp_version job_name
      job_variant := _extract_variant job_name
      runs := List.insertionSort runRecentFirst
        (runs.filter (fun r => decide (r.job = job_name))) })

/-!
## Embedding of `vsphere_monitor/formatters.py`
-/

/-- `state_order.get(latest_state, 5)` in the `"state"` sort branch.
`none` is the empty-`runs` case, where the source's `latest_state` itself
raises `IndexError` (never reached on aggregate output). -/
def stateOrderVal : Option String → ℕ
  | some st =>
    if st = "failure" then 0
    else if st = "error" then 1
    else if st = "pending" then 2
    else if st = "aborted" then 3
    else if st = "success" then 4
    else 5
  | none => 5

/-- `s.latest_run.start_time` in the `"recent"` sort branch; on `none`
(empty `runs`) the source raises `IndexError` (never reached on aggregate
output). -/
def latestStartD (s : JobSummary) : ℤ :=
  match s.latest_run with
  | some r => r.start_time
  | none => 0

/-- `"recent"` sort: latest start time descending (stable). -/
def recentKey (a b : JobSummary) : Prop := latestStartD b ≤ latestStartD a

/-- `"failure_rate"` sort: failure rate descending (stable). -/
def failRateKey (a b : JobSummary) : Prop := b.failure_rate ≤ a.failure_rate

/-- First component of the `"version"` sort key tuple
`(s.ocp_version == "unknown", s.ocp_version, s.job)` (False < True). -/
def unknownFlag (s : JobSummary) : ℕ := if s.ocp_version = "unknown" then 1 else 0

/-- `"version"` sort: ascending lexicographic order of the key tuple
`(s.ocp_version == "unknown", s.ocp_version, s.job)`. -/
def versionKey (a b : JobSummary) : Prop :=
  unknownFlag a < unknownFlag b ∨
    (unknownFlag a = unknownFlag b ∧
      (strLt a.ocp_version b.ocp_version ∨
        (a.ocp_version = b.ocp_version ∧ strLe a.job b.job)))

/-- `"state"` sort: ascending lexicographic order of the key tuple
`(state_order.get(latest_state, 5), s.job)`. -/
def stateKey (a b : JobSummary) : Prop :=
  stateOrderVal a.latest_state < stateOrderVal b.latest_state ∨
    (stateOrderVal a.latest_state = stateOrderVal b.latest_state ∧ strLe a.job b.job)

instance : DecidableRel recentKey := fun a b => by unfold recentKey; infer_instance

instance : DecidableRel failRateKey := fun a b => by unfold failRateKey; infer_instance

instance : DecidableRel versionKey := fun a b => by unfold versionKey; infer_instance

instance : DecidableRel stateKey := fun a b => by unfold stateKey; infer_instance

instance : IsTotal JobSummary versionKey := ⟨by
  intro a b
  rcases Nat.lt_trichotomy (unknownFlag a) (unknownFlag b) with h | h | h
  · exact Or.inl (Or.inl h)
  · by_cases hv : strLt a.ocp_version b.ocp_version
    · exact Or.inl (Or.inr ⟨h, Or.inl hv⟩)
    · by_cases hv' : strLt b.ocp_version a.ocp_version
      · exact Or.inr (Or.inr ⟨h.symm, Or.inl hv'⟩)
      · have hveq : a.ocp_version = b.ocp_version := strEq_of_not_lt hv hv'
        rcases strLe_total a.job b.job with hj | hj
        · exact Or.inl (Or.inr ⟨h, Or.inr ⟨hveq, hj⟩⟩)
        · exact Or.inr (Or.inr ⟨h.symm, Or.inr ⟨hveq.symm, hj⟩⟩)
  · exact Or.inr (Or.inl h)⟩

instance : IsTrans JobSummary versionKey := ⟨by
  intro a b c hab hbc
  rcases hab with h1 | ⟨e1, h1⟩
  · rcases hbc with h2 | ⟨e2, h2⟩
    · exact Or.inl (lt_trans h1 h2)
    · exact Or.inl (e2 ▸ h1)
  · rcases hbc with h2 | ⟨e2, h2⟩
    · exact Or.inl (e1 ▸ h2)
    · refine Or.inr ⟨e1.trans e2, ?_⟩
      rcases h1 with hv1 | ⟨ev1, hj1⟩
      · rcases h2 with hv2 | ⟨ev2, hj2⟩
        · exact Or.inl (strLt_trans hv1 hv2)
        · exact Or.inl (ev2 ▸ hv1)
      · rcases h2 with hv2 | ⟨ev2, hj2⟩
        · exact Or.inl (ev1 ▸ hv2)
        · exact Or.inr ⟨ev1.trans ev2, strLe_trans hj1 hj2⟩⟩

/-- `formatters.sort_summaries` (`result = list(summaries)` then one
stable sort per key; an unrecognised key returns the copy unchanged). -/
def sort_summaries (summaries : List JobSummary) (sort_by : String) :
    List JobSummary :=
  if sort_by = "recent" then List.insertionSort recentKey summaries
  else if sort_by = "failure_rate" then List.insertionSort failRateKey summaries
  else if sort_by = "version" then List.insertionSort versionKey summaries
  else if sort_by = "state" then List.insertionSort stateKey summaries
  else summaries

/-- Python truthiness of the optional string filters (`if version_filter:`):
`None` and `""` are falsy. -/
def truthy : Option String → Bool
  | none => false
  | some s => decide (s ≠ "")

/-- The state-filter list comprehension
`[s for s in result if s.latest_state == state_filter]`, evaluated left
to right: `s.latest_state` is `runs[0].state`, so a summary with empty
`runs` raises `IndexError`, which aborts the whole comprehension
(modelled as `.error ()`). -/
def filterByState (state_filter : Option String) :
    List JobSummary → Except Unit (List JobSummary)
  | [] => .ok []
  | s :: rest =>
    match s.latest_state with
    | none => .error ()
    | some st =>
      match filterByState state_filter rest with
      | .error e => .error e
      | .ok l => .ok (if some st = state_filter then s :: l else l)

/-- `formatters.filter_summaries`; `.error ()` models the `IndexError`
raised by `s.latest_state` when a summary with empty `runs` meets an
active state filter. -/
def filter_summaries (summaries : List JobSummary)
    (version_filter state_filter : Option String) :
    Except Unit (List JobSummary) :=
  let result :=
    if truthy version_filter then
      summaries.filter (fun s => decide (some s.ocp_version = version_filter))
    else summaries
  if truthy state_filter then filterByState state_filter result
  else .ok result

/-!
## Embedding of `vsphere_monitor/tui.py` (`_ERROR_RE`)

`_ERROR_RE = re.compile(r"(error|ERROR|FAIL|FAILED|fatal|FATAL|panic
|PANIC|timed?\s*out|DeadlineExceeded|could not|cannot|exit\s+code\s+
[1-9])")` — no `re.IGNORECASE` flag.  On this pattern the engine is
deterministic at a fixed position: the literal alternatives are exact
matches; in `timed?\s*out` the optional `d` is consumed iff present
(`d` is not whitespace and not `o`) and `\s*`/`\s+` take the maximal
whitespace run (whitespace cannot start `out`/`code` or be a digit).
`re.search` tries every position. -/

/-- ASCII subset of the regex's `\s` (log lines are ASCII). -/
def isPySpace (c : Char) : Bool :=
  decide (c = ' ') || decide (c = '\t') || decide (c = '\n') || decide (c = '\r')
    || decide (c = '\x0b') || decide (c = '\x0c')

/-- `timed?\s*out` anchored at the current position (the optional `d` is
consumed iff present). -/
def timedOutAt (l : List Char) : Bool :=
  startsWith "time".data l &&
    (let r := l.drop 4
     let r2 := if r.head? = some 'd' then r.tail else r
     startsWith "out".data (r2.dropWhile isPySpace))

/-- `exit\s+code\s+[1-9]` anchored at the current position. -/
def exitCodeAt (l : List Char) : Bool :=
  startsWith "exit".data l &&
    (let r := l.drop 4
     !(r.takeWhile isPySpace).isEmpty &&
       (let r2 := r.dropWhile isPySpace
        startsWith "code".data r2 &&
          (let r3 := r2.drop 4
           !(r3.takeWhile isPySpace).isEmpty &&
             (match r3.dropWhile isPySpace with
              | c :: _ => decide ('1' ≤ c) && decide (c ≤ '9')
              | [] => false))))

/-- The literal alternatives of `_ERROR_RE`, with their exact casing. -/
def errorLits : List (List Char) :=
  ["error".data, "ERROR".data, "FAIL".data, "FAILED".data, "fatal".data,
   "FATAL".data, "panic".data, "PANIC".data, "DeadlineExceeded".data,
   "could not".data, "cannot".data]

/-- One attempt of `_ERROR_RE` at the current position. -/
def errorMatchAt (l : List Char) : Bool :=
  errorLits.any (fun w => startsWith w l) || timedOutAt l || exitCodeAt l

/-- `_ERROR_RE.search(line)` as a Boolean: try every position. -/
def _ERROR_RE_search : List Char → Bool
  | [] => errorMatchAt []
  | c :: cs => errorMatchAt (c :: cs) || _ERROR_RE_search cs

/-- Spec-side definition (claim C7, following the claim's words): the
line "case-insensitively contains" one of the keywords, or "'exit code'
followed by a nonzero digit" (case-insensitively). -/
def specErrorKeywords : List (List Char) :=
  ["error".data, "fail".data, "fatal".data, "panic".data, "timed out".data,
   "deadlineexceeded".data, "could not".data, "cannot".data]

def specExitCodeAt (l : List Char) : Bool :=
  startsWith "exit code".data l &&
    (match l.drop 9 with
     | c :: _ => decide ('1' ≤ c) && decide (c ≤ '9')
     | [] => false)

def specExitCodeScan : List Char → Bool
  | [] => specExitCodeAt []
  | c :: cs => specExitCodeAt (c :: cs) || specExitCodeScan cs

/-- Spec-side definition (claim C7): the case-insensitive matcher the
claim describes. -/
def specErrorMatch (l : List Char) : Bool :=
  let low := l.map Char.toLower
  specErrorKeywords.any (fun w => containsSub w low) || specExitCodeScan low

/-!
### Characterization predicates for the extractor (claim C2)
-/

/-- The extractor's keep condition before timestamps: type is exactly
`"periodic"` and the job name contains `"vsphere"` case-insensitively. -/
def keptHeader (it : RawItem) : Bool :=
  decide (it.spec_type = some "periodic")
    && containsSub "vsphere".data ((it.job.getD "").data.map Char.toLower)

/-- `_parse_time` raises on this field: present, non-empty, unparsable. -/
def timeRaises (ts : Option String) : Bool :=
  match ts with
  | none => false
  | some s => decide (s ≠ "") && (fromisoformat (replaceZ s.data)).isNone

/-- `_parse_time` returns a parsed instant on this field. -/
def timeSome (ts : Option String) : Bool :=
  match ts with
  | none => false
  | some s => decide (s ≠ "") && (fromisoformat (replaceZ s.data)).isSome

/-- The extractor raises at this item: it passes the keep condition and
its `startTime` is unparsable, or its `startTime` parses and its
`completionTime` is unparsable. -/
def itemRaises (it : RawItem) : Bool :=
  keptHeader it && (timeRaises it.startTime
    || (timeSome it.startTime && timeRaises it.completionTime))

/-- The `JobRun` the extractor emits for this item, if any. -/
def itemToRun (it : RawItem) : Option JobRun :=
  if keptHeader it then
    match _parse_time it.startTime with
    | .ok (some start) =>
      match _parse_time it.completionTime with
      | .ok ct => some ⟨it.job.getD "", it.state.getD "unknown", start, ct,
          it.url.getD "", it.build_id.getD ""⟩
      | .error _ => none
    | _ => none
  else none

/-- Spec-side predicate (claim C3): `v` is a substring of `l` matching a
dotted two-component numeric pattern, bounded on the left by the string
start or a hyphen and on the right by a hyphen or the string end. -/
def IsBoundedVersionSub (l v : List Char) : Prop :=
  ∃ pre d1 d2 post, l = pre ++ (d1 ++ '.' :: d2) ++ post ∧ v = d1 ++ '.' :: d2
    ∧ d1 ≠ [] ∧ (∀ c ∈ d1, c.isDigit = true)
    ∧ d2 ≠ [] ∧ (∀ c ∈ d2, c.isDigit = true)
    ∧ (pre = [] ∨ ∃ pre', pre = pre' ++ ['-'])
    ∧ (post = [] ∨ ∃ post', post = '-' :: post')

/-!
## Claim theorems
-/

theorem versionKey_unknown_mono {a b : JobSummary} (h : versionKey a b)
    (ha : a.ocp_version = "unknown") : b.ocp_version = "unknown" := by
  by_contra hb
  have h1 : unknownFlag a = 1 := by simp [unknownFlag, ha]
  have h2 : unknownFlag b = 0 := by simp [unknownFlag, hb]
  rcases h with hlt | ⟨heq, _⟩
  · omega
  · omega

/-- Claim C4: `_extract_variant` respects the ordered priority list: after
stripping at most one known prefix, a name containing "upgrade"
classifies as "upgrade" regardless of other markers; a name containing
both "serial" and "techpreview" (and not "upgrade") classifies as
"tp-serial"; a name containing none of the listed markers classifies as
"e2e". -/
theorem extract_variant_precedence (job_name : String) :
    (containsSub "upgrade".data (variantStrip job_name.data) = true →
      _extract_variant job_name = "upgrade")
    ∧ (containsSub "serial".data (variantStrip job_name.data) = true →
       containsSub "techpreview".data (variantStrip job_name.data) = true →
       containsSub "upgrade".data (variantStrip job_name.data) = false →
       _extract_variant job_name = "tp-serial")
    ∧ ((∀ m ∈ variantMarkers, containsSub m (variantStrip job_name.data) = false) →
       _extract_variant job_name = "e2e") := by
  refine ⟨fun h => ?_, fun hs ht hu => ?_, fun hall => ?_⟩
  · simp [_extract_variant, h]
  · simp [_extract_variant, hs, ht, hu]
  · have hu := hall "upgrade".data (by simp [variantMarkers])
    have hse := hall "serial".data (by simp [variantMarkers])
    have hte := hall "techpreview".data (by simp [variantMarkers])
    have hupi := hall "upi".data (by simp [variantMarkers])
    have hst := hall "static".data (by simp [variantMarkers])
    have hcsi := hall "csi".data (by simp [variantMarkers])
    have hz := hall "zones".data (by simp [variantMarkers])
    have has := hall "assisted".data (by simp [variantMarkers])
    have hop := hall "operator".data (by simp [variantMarkers])
    have hpr := hall "prfinder".data (by simp [variantMarkers])
    simp [_extract_variant, hu, hse, hte, hupi, hst, hcsi, hz, has, hop, hpr]

/-- Witness for C4 at a concrete job name. -/
theorem extract_variant_precedence_witness :
    _extract_variant "x-serial-techpreview" = "tp-serial" :=
  (extract_variant_precedence "x-serial-techpreview").2.1 (by decide) (by decide)
    (by decide)

/-- Claim C5: the tail-retention loop of `fetch_build_log` produces
exactly the last `max_lines` lines of the concatenated stream in original
order (all of them when the stream has fewer); every deque append keeps
at most `max_lines` lines, so the retained-line count never exceeds the
bound at any point; a final partial line with no trailing newline is
retained as a line (it is part of `streamLines`). -/
theorem fetch_build_log_tail_bound (chunks : List (List Char)) (max_lines : ℕ) :
    logTailLoop max_lines chunks = lastN max_lines (streamLines chunks.flatten)
    ∧ (∀ (d : List (List Char)) (x : List Char),
        (pushCap max_lines d x).length ≤ max_lines)
    ∧ (∀ s : List Char, (splitNl s).2 ≠ [] →
        streamLines s = (splitNl s).1 ++ [(splitNl s).2]) :=
  ⟨logTailLoop_eq max_lines chunks,
   fun _ x => length_lastN max_lines _,
   fun s h => by simp [streamLines, h]⟩

/-- Witness for C5 at a concrete chunk stream and bound. -/
theorem fetch_build_log_tail_bound_witness :
    logTailLoop 2 ["a\nb\nc".data, "d".data]
      = lastN 2 (streamLines (["a\nb\nc".data, "d".data] : List (List Char)).flatten) :=
  (fetch_build_log_tail_bound ["a\nb\nc".data, "d".data] 2).1

/-- Claim C6: `prow_url_to_build_log_url` returns `none` exactly when the
URL does not contain the marker `"/view/gs/"`; `fetch_build_log` raises
the distinct `ValueError` exactly in that case, a different error kind
from the HTTP-status error raised on fetch failure. -/
theorem fetch_build_log_error_kinds (prow_url : List Char)
    (resp : Except ℕ (List (List Char))) (max_lines : ℕ) :
    (prow_url_to_build_log_url prow_url = none ↔
      ¬ ∃ s t, prow_url = s ++ gsMarker ++ t)
    ∧ (fetch_build_log prow_url resp max_lines = .error .valueError ↔
        prow_url_to_build_log_url prow_url = none)
    ∧ (∀ code : ℕ, prow_url_to_build_log_url prow_url ≠ none →
        fetch_build_log prow_url (.error code) max_lines
          = .error (.httpStatusError code)) := by
  have h1 : prow_url_to_build_log_url prow_url = none ↔
      afterMarker prow_url = none := by
    unfold prow_url_to_build_log_url
    cases afterMarker prow_url <;> simp
  refine ⟨?_, ?_, ?_⟩
  · rw [h1, afterMarker_none_iff]
    constructor
    · intro h hex
      have := (containsSub_iff gsMarker prow_url).mpr hex
      rw [h] at this
      exact Bool.noConfusion this
    · intro h
      by_contra hne
      have : containsSub gsMarker prow_url = true := by
        cases hcs : containsSub gsMarker prow_url
        · exact absurd hcs hne
        · rfl
      exact h ((containsSub_iff gsMarker prow_url).mp this)
  · cases hurl : prow_url_to_build_log_url prow_url with
    | none => simp [fetch_build_log, hurl]
    | some lu =>
      cases resp with
      | error code => simp [fetch_build_log, hurl]
      | ok chunks => simp [fetch_build_log, hurl]
  · intro code hne
    cases hurl : prow_url_to_build_log_url prow_url with
    | none => exact absurd hurl hne
    | some lu => simp [fetch_build_log, hurl]

/-- Witness for C6 at a concrete URL and failing response. -/
theorem fetch_build_log_error_kinds_witness :
    fetch_build_log "https://prow.ci.openshift.org/view/gs/b/logs/j/1".data
      (.error 404) 5 = .error (.httpStatusError 404) :=
  (fetch_build_log_error_kinds "https://prow.ci.openshift.org/view/gs/b/logs/j/1".data
    (.error 404) 5).2.2 404 (by decide)

/-- Claim C8: `sort_summaries` with key `"version"` permutes the input
into ascending order of the key tuple (is-unknown flag, version string,
job name): ascending by version string, every `"unknown"` summary after
all others, job name as secondary key. -/
theorem sort_summaries_version_order (summaries : List JobSummary) :
    (sort_summaries summaries "version").Perm summaries
    ∧ List.Sorted versionKey (sort_summaries summaries "version")
    ∧ (sort_summaries summaries "version").Pairwise
        (fun a b => a.ocp_version = "unknown" → b.ocp_version = "unknown") := by
  have he : sort_summaries summaries "version"
      = List.insertionSort versionKey summaries := by
    simp [sort_summaries]
  refine ⟨?_, ?_, ?_⟩
  · rw [he]; exact List.perm_insertionSort versionKey summaries
  · rw [he]; exact List.sorted_insertionSort versionKey summaries
  · rw [he]
    exact (List.sorted_insertionSort versionKey summaries).imp
      (fun h ha => versionKey_unknown_mono h ha)

/-- Witness for C8 at a concrete summary list. -/
theorem sort_summaries_version_order_witness :
    (sort_summaries [JobSummary.mk "j" "unknown" "e2e" [],
        JobSummary.mk "k" "4.18" "e2e" []] "version").Perm
      [JobSummary.mk "j" "unknown" "e2e" [], JobSummary.mk "k" "4.18" "e2e" []] :=
  (sort_summaries_version_order _).1

theorem truthy_none : truthy none = false := rfl

theorem filterByState_ok {sf : Option String} {l : List JobSummary}
    (h : ∀ s ∈ l, s.runs ≠ []) :
    filterByState sf l
      = .ok (l.filter (fun s => decide (s.latest_state = sf))) := by
  induction l with
  | nil => rfl
  | cons s rest ih =>
    have hs := h s (by simp)
    obtain ⟨st, hst⟩ : ∃ st, s.latest_state = some st := by
      cases hr : s.runs with
      | nil => exact absurd hr hs
      | cons r rs =>
        exact ⟨r.state, by simp [JobSummary.latest_state, JobSummary.latest_run, hr]⟩
    have hrest := ih (fun s' hs' => h s' (by simp [hs']))
    simp only [filterByState, hst, hrest]
    by_cases heq : some st = sf
    · simp [List.filter_cons, hst, heq]
    · simp [List.filter_cons, hst, heq]

/-- Claim C9 counterexample: on the collection containing one summary
with empty `runs`, an active state filter evaluates `latest_state`
(`runs[0].state`) and raises `IndexError` (`.error ()`), so applying the
state filter first raises, while applying the version filter first
removes the summary and then returns `[]` normally — the two orders are
not equivalent. -/
theorem filter_summaries_order_counterexample :
    Except.bind (filter_summaries [JobSummary.mk "j" "4.19" "e2e" []]
        none (some "failure"))
        (fun l => filter_summaries l (some "4.18") none) = .error ()
    ∧ Except.bind (filter_summaries [JobSummary.mk "j" "4.19" "e2e" []]
        (some "4.18") none)
        (fun l => filter_summaries l none (some "failure")) = .ok [] := by
  decide

/-- Claim C9 (amended): on every collection of summaries whose `runs`
are all non-empty (in particular on all `aggregate` output, where
`latest_state` never raises), filtering is order-independent: state
filter then version filter, version filter then state filter, and the
single combined application all return the same `.ok` sequence. -/
theorem filter_summaries_commute (summaries : List JobSummary)
    (version_filter state_filter : Option String)
    (hne : ∀ s ∈ summaries, s.runs ≠ []) :
    Except.bind (filter_summaries summaries version_filter none)
        (fun l => filter_summaries l none state_filter)
      = Except.bind (filter_summaries summaries none state_filter)
          (fun l => filter_summaries l version_filter none)
    ∧ Except.bind (filter_summaries summaries version_filter none)
        (fun l => filter_summaries l none state_filter)
      = filter_summaries summaries version_filter state_filter := by
  by_cases hv : truthy version_filter <;> by_cases hs : truthy state_filter
  · have e1 : filter_summaries summaries version_filter none
        = .ok (summaries.filter
            (fun s => decide (some s.ocp_version = version_filter))) := by
      simp [filter_summaries, truthy_none, hv]
    have e2 : filter_summaries summaries none state_filter
        = filterByState state_filter summaries := by
      simp [filter_summaries, truthy_none, hs]
    have hne2 : ∀ s ∈ summaries.filter
        (fun s => decide (some s.ocp_version = version_filter)), s.runs ≠ [] :=
      fun s hs' => hne s (List.mem_of_mem_filter hs')
    have e3 : filter_summaries (summaries.filter
          (fun s => decide (some s.ocp_version = version_filter)))
          none state_filter
        = .ok ((summaries.filter
              (fun s => decide (some s.ocp_version = version_filter))).filter
            (fun s => decide (s.latest_state = state_filter))) := by
      rw [show filter_summaries (summaries.filter
            (fun s => decide (some s.ocp_version = version_filter)))
            none state_filter
          = filterByState state_filter (summaries.filter
              (fun s => decide (some s.ocp_version = version_filter))) from by
        simp [filter_summaries, truthy_none, hs]]
      exact filterByState_ok hne2
    have e4 : filter_summaries (summaries.filter
          (fun s => decide (s.latest_state = state_filter)))
          version_filter none
        = .ok ((summaries.filter
              (fun s => decide (s.latest_state = state_filter))).filter
            (fun s => decide (some s.ocp_version = version_filter))) := by
      simp [filter_summaries, truthy_none, hv]
    have e5 : filter_summaries summaries version_filter state_filter
        = .ok ((summaries.filter
              (fun s => decide (some s.ocp_version = version_filter))).filter
            (fun s => decide (s.latest_state = state_filter))) := by
      rw [show filter_summaries summaries version_filter state_filter
          = filterByState state_filter (summaries.filter
              (fun s => decide (some s.ocp_version = version_filter))) from by
        simp [filter_summaries, truthy_none, hv, hs]]
      exact filterByState_ok hne2
    rw [e1, e2, filterByState_ok hne]
    simp only [Except.bind, e3, e4, e5]
    exact ⟨by rw [List.filter_comm], trivial⟩
  · have e1 : filter_summaries summaries version_filter none
        = .ok (summaries.filter
            (fun s => decide (some s.ocp_version = version_filter))) := by
      simp [filter_summaries, truthy_none, hv]
    have e2 : filter_summaries summaries none state_filter = .ok summaries := by
      simp [filter_summaries, truthy_none, hs]
    rw [e1, e2]
    simp only [Except.bind]
    constructor
    · rw [show filter_summaries (summaries.filter
            (fun s => decide (some s.ocp_version = version_filter)))
            none state_filter
          = .ok (summaries.filter
              (fun s => decide (some s.ocp_version = version_filter))) from by
        simp [filter_summaries, truthy_none, hs], e1]
    · rw [show filter_summaries (summaries.filter
            (fun s => decide (some s.ocp_version = version_filter)))
            none state_filter
          = .ok (summaries.filter
              (fun s => decide (some s.ocp_version = version_filter))) from by
        simp [filter_summaries, truthy_none, hs]]
      simp [filter_summaries, truthy_none, hv, hs]
  · have e1 : filter_summaries summaries version_filter none
        = .ok summaries := by
      simp [filter_summaries, truthy_none, hv]
    have e2 : filter_summaries summaries none state_filter
        = filterByState state_filter summaries := by
      simp [filter_summaries, truthy_none, hs]
    rw [e1, e2, filterByState_ok hne]
    simp only [Except.bind]
    have e3 : filter_summaries summaries none state_filter
        = .ok (summaries.filter
            (fun s => decide (s.latest_state = state_filter))) := by
      rw [e2]; exact filterByState_ok hne
    have e4 : filter_summaries (summaries.filter
          (fun s => decide (s.latest_state = state_filter)))
          version_filter none
        = .ok (summaries.filter
            (fun s => decide (s.latest_state = state_filter))) := by
      simp [filter_summaries, truthy_none, hv]
    have e5 : filter_summaries summaries version_filter state_filter
        = .ok (summaries.filter
            (fun s => decide (s.latest_state = state_filter))) := by
      rw [show filter_summaries summaries version_filter state_filter
          = filterByState state_filter summaries from by
        simp [filter_summaries, truthy_none, hv, hs]]
      exact filterByState_ok hne
    exact ⟨by rw [e3, e4], by rw [e3, e5]⟩
  · have e1 : filter_summaries summaries version_filter none
        = .ok summaries := by
      simp [filter_summaries, truthy_none, hv]
    have e2 : filter_summaries summaries none state_filter
        = .ok summaries := by
      simp [filter_summaries, truthy_none, hs]
    rw [e1, e2]
    simp only [Except.bind]
    exact ⟨by rw [e1, e2], by rw [e2]; simp [filter_summaries, truthy_none, hv, hs]⟩

/-- Witness for C9 (amended) at a concrete collection of non-empty-runs
summaries. -/
theorem filter_summaries_commute_witness :
    Except.bind (filter_summaries
        [JobSummary.mk "j" "4.18" "e2e" [⟨"j", "failure", 1, none, "", ""⟩]]
        (some "4.18") none)
        (fun l => filter_summaries l none (some "failure"))
      = Except.bind (filter_summaries
          [JobSummary.mk "j" "4.18" "e2e" [⟨"j", "failure", 1, none, "", ""⟩]]
          none (some "failure"))
          (fun l => filter_summaries l (some "4.18") none) :=
  (filter_summaries_commute
    [JobSummary.mk "j" "4.18" "e2e" [⟨"j", "failure", 1, none, "", ""⟩]]
    (some "4.18") (some "failure") (by decide)).1

theorem failure_rate_eq (s : JobSummary) :
    s.failure_rate = (s.failure_count : ℚ) / (s.total_runs : ℚ) := by
  unfold JobSummary.failure_rate
  by_cases h : s.runs = []
  · simp [h, JobSummary.failure_count, JobSummary.total_runs]
  · simp [h]

/-- Claim C1: every `JobSummary` produced by `aggregate` has its `runs`
sorted by start time descending (index 0 most recent), and the derived
metrics satisfy `total_runs = len(runs)`, `failure_count` = number of
runs in state `"failure"`, and `failure_rate = failure_count/total_runs`
(0 when `runs` is empty; in `ℚ` the quotient equation also holds there
since `0/0 = 0`). -/
theorem aggregate_runs_sorted_and_metrics (runs : List JobRun) (s : JobSummary)
    (hs : s ∈ aggregate runs) :
    List.Sorted (fun a b : JobRun => b.start_time ≤ a.start_time) s.runs
    ∧ s.total_runs = s.runs.length
    ∧ s.failure_count
        = (s.runs.filter (fun r => decide (r.state = "failure"))).length
    ∧ s.failure_rate = (s.failure_count : ℚ) / (s.total_runs : ℚ)
    ∧ (s.runs = [] → s.failure_rate = 0) := by
  unfold aggregate at hs
  simp only [List.mem_map] at hs
  obtain ⟨j, hj, rfl⟩ := hs
  refine ⟨?_, rfl, ?_, failure_rate_eq _,
    fun h => by unfold JobSummary.failure_rate; rw [if_pos h]⟩
  · exact List.sorted_insertionSort runRecentFirst _
  · simp [JobSummary.failure_count, List.countP_eq_length_filter]

/-- Witness for C1 at a concrete run list and its aggregate summary. -/
theorem aggregate_runs_sorted_and_metrics_witness :
    List.Sorted (fun a b : JobRun => b.start_time ≤ a.start_time)
      (JobSummary.mk "vsphere-a" "unknown" "e2e"
        [⟨"vsphere-a", "success", 9, none, "", ""⟩,
         ⟨"vsphere-a", "failure", 5, none, "", ""⟩]).runs :=
  (aggregate_runs_sorted_and_metrics
    [⟨"vsphere-a", "failure", 5, none, "", ""⟩,
     ⟨"vsphere-a", "success", 9, none, "", ""⟩]
    (JobSummary.mk "vsphere-a" "unknown" "e2e"
      [⟨"vsphere-a", "success", 9, none, "", ""⟩,
       ⟨"vsphere-a", "failure", 5, none, "", ""⟩])
    (by decide)).1

/-- Claim C10: every `JobSummary` produced by `aggregate` has non-empty
`runs` (a group is only created from an occurring job name), so
`latest_run`, `latest_state` and `latest_url` are defined on all
aggregate output; on a summary constructed with empty `runs`,
`latest_run` (`runs[0]`) raises (modelled as `none`) even though
`failure_rate` is defined as 0 there. -/
theorem aggregate_nonempty_runs_latest_defined (runs : List JobRun)
    (s : JobSummary) (hs : s ∈ aggregate runs) :
    (s.runs ≠ [] ∧ s.latest_run.isSome = true ∧ s.latest_state.isSome = true
      ∧ s.latest_url.isSome = true)
    ∧ ((JobSummary.mk "j" "unknown" "e2e" []).latest_run = none
       ∧ (JobSummary.mk "j" "unknown" "e2e" []).failure_rate = 0) := by
  refine ⟨?_, by simp [JobSummary.latest_run], by simp [JobSummary.failure_rate]⟩
  unfold aggregate at hs
  simp only [List.mem_map] at hs
  obtain ⟨j, hj, rfl⟩ := hs
  have hj1 : j ∈ (runs.map JobRun.job).dedup := by
    have hperm := List.perm_insertionSort strLe ((runs.map JobRun.job).dedup)
    exact hperm.mem_iff.mp hj
  have hj2 : j ∈ runs.map JobRun.job := List.mem_dedup.mp hj1
  obtain ⟨r, hr, hrj⟩ := List.mem_map.mp hj2
  have hrf : r ∈ runs.filter (fun r => decide (r.job = j)) := by
    rw [List.mem_filter]
    exact ⟨hr, by simp [hrj]⟩
  have hne : List.insertionSort runRecentFirst
      (runs.filter (fun r => decide (r.job = j))) ≠ [] := by
    intro hnil
    have := (List.perm_insertionSort runRecentFirst
      (runs.filter (fun r => decide (r.job = j)))).symm.mem_iff.mp hrf
    rw [hnil] at this
    exact List.not_mem_nil r this
  refine ⟨hne, ?_, ?_, ?_⟩ <;>
    · cases hcase : List.insertionSort runRecentFirst
        (runs.filter (fun r => decide (r.job = j))) with
      | nil => exact absurd hcase hne
      | cons r0 rs0 =>
        simp [JobSummary.latest_run, JobSummary.latest_state,
          JobSummary.latest_url, hcase]

/-- Witness for C10 at a concrete run list and its aggregate summary. -/
theorem aggregate_nonempty_runs_latest_defined_witness :
    (JobSummary.mk "vsphere-b" "unknown" "e2e"
      [⟨"vsphere-b", "failure", 3, none, "u", "1"⟩]).runs ≠ [] :=
  (aggregate_nonempty_runs_latest_defined
    [⟨"vsphere-b", "failure", 3, none, "u", "1"⟩]
    (JobSummary.mk "vsphere-b" "unknown" "e2e"
      [⟨"vsphere-b", "failure", 3, none, "u", "1"⟩])
    (by decide)).1.1

theorem parse_time_error_iff (ts : Option String) :
    _parse_time ts = .error () ↔ timeRaises ts = true := by
  cases ts with
  | none => simp [_parse_time, timeRaises]
  | some s =>
    simp only [_parse_time, timeRaises]
    by_cases he : s = ""
    · simp [he]
    · cases hf : fromisoformat (replaceZ s.data) with
      | none => simp [he, hf]
      | some t => simp [he, hf]

theorem parse_time_ok_some_iff (ts : Option String) :
    (∃ t, _parse_time ts = .ok (some t)) ↔ timeSome ts = true := by
  cases ts with
  | none => simp [_parse_time, timeSome]
  | some s =>
    simp only [_parse_time, timeSome]
    by_cases he : s = ""
    · simp [he]
    · cases hf : fromisoformat (replaceZ s.data) with
      | none => simp [he, hf]
      | some t => simp [he, hf]

theorem parse_time_ok_none_iff (ts : Option String) :
    _parse_time ts = .ok none ↔
      (timeRaises ts = false ∧ timeSome ts = false) := by
  cases ts with
  | none => simp [_parse_time, timeRaises, timeSome]
  | some s =>
    simp only [_parse_time, timeRaises, timeSome]
    by_cases he : s = ""
    · simp [he]
    · cases hf : fromisoformat (replaceZ s.data) with
      | none => simp [he, hf]
      | some t => simp [he, hf]

/-- Claim C2 (amended): the extractor keeps exactly the periodic items
whose job name contains "vsphere" case-insensitively and whose
`startTime` parses; an item whose `startTime` is missing or empty is
dropped without raising; but a kept item whose `startTime` (or, after a
parsable start, `completionTime`) is a non-empty unparsable string makes
the whole extraction raise `ValueError` instead of being dropped. -/
theorem extract_vsphere_periodic_characterization (items : List RawItem) :
    (extract_vsphere_periodic items = .error () ↔ items.any itemRaises = true)
    ∧ ∀ runs, extract_vsphere_periodic items = .ok runs →
        runs = items.filterMap itemToRun := by
  induction items with
  | nil =>
    constructor
    · simp [extract_vsphere_periodic]
    · intro runs h
      simp only [extract_vsphere_periodic] at h
      injection h with h'
      simp [← h']
  | cons item rest ih =>
    obtain ⟨ih1, ih2⟩ := ih
    by_cases ht : item.spec_type = some "periodic"
    case neg =>
      have hskip : extract_vsphere_periodic (item :: rest)
          = extract_vsphere_periodic rest := by
        simp [extract_vsphere_periodic, ht]
      have hkept : keptHeader item = false := by simp [keptHeader, ht]
      have hraise : itemRaises item = false := by simp [itemRaises, hkept]
      have hrun : itemToRun item = none := by simp [itemToRun, hkept]
      constructor
      · rw [hskip, ih1]
        simp [hraise]
      · intro runs h
        rw [hskip] at h
        rw [ih2 runs h]
        simp [List.filterMap_cons, hrun]
    case pos =>
      by_cases hv : containsSub "vsphere".data
          ((item.job.getD "").data.map Char.toLower) = true
      case neg =>
        have hvf : containsSub "vsphere".data
            ((item.job.getD "").data.map Char.toLower) = false := by
          simpa using hv
        have hskip : extract_vsphere_periodic (item :: rest)
            = extract_vsphere_periodic rest := by
          simp [extract_vsphere_periodic, ht, hvf]
        have hkept : keptHeader item = false := by simp [keptHeader, hvf]
        have hraise : itemRaises item = false := by simp [itemRaises, hkept]
        have hrun : itemToRun item = none := by simp [itemToRun, hkept]
        constructor
        · rw [hskip, ih1]
          simp [hraise]
        · intro runs h
          rw [hskip] at h
          rw [ih2 runs h]
          simp [List.filterMap_cons, hrun]
      case pos =>
        have hkept : keptHeader item = true := by simp [keptHeader, ht, hv]
        cases hstart : _parse_time item.startTime with
        | error e =>
          cases e
          have hex : extract_vsphere_periodic (item :: rest) = .error () := by
            simp [extract_vsphere_periodic, ht, hv, hstart]
          have htr : timeRaises item.startTime = true :=
            (parse_time_error_iff _).mp hstart
          constructor
          · rw [hex]
            simp [itemRaises, hkept, htr]
          · intro runs h
            rw [hex] at h
            exact absurd h (by simp)
        | ok ostart =>
          cases ostart with
          | none =>
            have hskip : extract_vsphere_periodic (item :: rest)
                = extract_vsphere_periodic rest := by
              simp [extract_vsphere_periodic, ht, hv, hstart]
            obtain ⟨htrf, htsf⟩ := (parse_time_ok_none_iff _).mp hstart
            have hraise : itemRaises item = false := by
              simp [itemRaises, htrf, htsf]
            have hrun : itemToRun item = none := by
              simp [itemToRun, hkept, hstart]
            constructor
            · rw [hskip, ih1]
              simp [hraise]
            · intro runs h
              rw [hskip] at h
              rw [ih2 runs h]
              simp [List.filterMap_cons, hrun]
          | some st =>
            have hts : timeSome item.startTime = true :=
              (parse_time_ok_some_iff _).mp ⟨st, hstart⟩
            have htrf : timeRaises item.startTime = false := by
              by_contra hh
              have h1 : timeRaises item.startTime = true := by simpa using hh
              have h2 := (parse_time_error_iff _).mpr h1
              rw [hstart] at h2
              exact Except.noConfusion h2
            cases hcomp : _parse_time item.completionTime with
            | error e =>
              cases e
              have hex : extract_vsphere_periodic (item :: rest) = .error () := by
                simp [extract_vsphere_periodic, ht, hv, hstart, hcomp]
              have htr2 : timeRaises item.completionTime = true :=
                (parse_time_error_iff _).mp hcomp
              constructor
              · rw [hex]
                simp [itemRaises, hkept, hts, htr2]
              · intro runs h
                rw [hex] at h
                exact absurd h (by simp)
            | ok ct =>
              have htr2f : timeRaises item.completionTime = false := by
                by_contra hh
                have h1 : timeRaises item.completionTime = true := by simpa using hh
                have h2 := (parse_time_error_iff _).mpr h1
                rw [hcomp] at h2
                exact Except.noConfusion h2
              have hraise : itemRaises item = false := by
                simp [itemRaises, htrf, htr2f]
              have hrun : itemToRun item = some ⟨item.job.getD "",
                  item.state.getD "unknown", st, ct, item.url.getD "",
                  item.build_id.getD ""⟩ := by
                simp [itemToRun, hkept, hstart, hcomp]
              cases hrest : extract_vsphere_periodic rest with
              | error e =>
                cases e
                have hex : extract_vsphere_periodic (item :: rest) = .error () := by
                  simp [extract_vsphere_periodic, ht, hv, hstart, hcomp, hrest]
                constructor
                · rw [hex]
                  have hrany : rest.any itemRaises = true := ih1.mp hrest
                  simp [hrany]
                · intro runs h
                  rw [hex] at h
                  exact absurd h (by simp)
              | ok runs' =>
                have hex : extract_vsphere_periodic (item :: rest)
                    = .ok (⟨item.job.getD "", item.state.getD "unknown", st, ct,
                        item.url.getD "", item.build_id.getD ""⟩ :: runs') := by
                  simp [extract_vsphere_periodic, ht, hv, hstart, hcomp, hrest]
                have hanyf : rest.any itemRaises = false := by
                  cases hany : rest.any itemRaises
                  · rfl
                  · have hcontra := ih1.mpr hany
                    rw [hrest] at hcontra
                    exact absurd hcontra (by simp)
                constructor
                · rw [hex]
                  simp [hraise, hanyf]
                · intro runs h
                  rw [hex] at h
                  injection h with h'
                  rw [← h']
                  simp only [List.filterMap_cons, hrun]
                  rw [← ih2 runs' hrest]

/-- Claim C2 counterexample: a periodic vSphere item whose `startTime` is
the unparsable string `"bogus"` makes `extract_vsphere_periodic` raise
(`.error ()` models the propagated `ValueError`) rather than dropping
the item and returning normally as the claim states. -/
theorem extract_raises_on_unparsable_start :
    extract_vsphere_periodic
      [⟨some "periodic", some "vsphere-a", some "failure", some "bogus",
        none, none, none⟩] = .error () := by decide

/-- Witness for C2 (amended) at a concrete item with a parsable start and
an unparsable completion time. -/
theorem extract_vsphere_periodic_characterization_witness :
    extract_vsphere_periodic
      [⟨some "periodic", some "vsphere-b", some "x",
        some "2024-01-02T03:04:05Z", some "nope", none, none⟩] = .error () :=
  (extract_vsphere_periodic_characterization
    [⟨some "periodic", some "vsphere-b", some "x",
      some "2024-01-02T03:04:05Z", some "nope", none, none⟩]).1.mpr (by decide)

theorem takeWhile_append_all {p : Char → Bool} {a b : List Char}
    (ha : ∀ x ∈ a, p x = true)
    (hb : ∀ c, b.head? = some c → p c = false) :
    (a ++ b).takeWhile p = a ∧ (a ++ b).dropWhile p = b := by
  induction a with
  | nil =>
    cases b with
    | nil => simp
    | cons c cs =>
      have hc := hb c rfl
      simp [List.takeWhile_cons, List.dropWhile_cons, hc]
  | cons x a iha =>
    have hx := ha x (by simp)
    have ha' : ∀ y ∈ a, p y = true := fun y hy => ha y (by simp [hy])
    have hih := iha ha'
    simp [List.takeWhile_cons, List.dropWhile_cons, hx, hih.1, hih.2]

theorem versionMatchHere_iff {l v rest : List Char} :
    versionMatchHere l = some (v, rest) ↔
      ∃ d1 d2 post, l = d1 ++ '.' :: (d2 ++ post) ∧ v = d1 ++ '.' :: d2
        ∧ d1 ≠ [] ∧ (∀ c ∈ d1, c.isDigit = true)
        ∧ d2 ≠ [] ∧ (∀ c ∈ d2, c.isDigit = true)
        ∧ ((post = [] ∧ rest = []) ∨ post = '-' :: rest) := by
  constructor
  · intro h
    simp only [versionMatchHere] at h
    split at h
    · exact absurd h (by simp)
    · rename_i h1
      split at h
      · rename_i r2 heq
        split at h
        · exact absurd h (by simp)
        · rename_i h2
          split at h
          · rename_i heq2
            rw [Option.some.injEq, Prod.mk.injEq] at h
            obtain ⟨hv, hrest⟩ := h
            refine ⟨l.takeWhile Char.isDigit, r2.takeWhile Char.isDigit, [],
              ?_, hv.symm, h1, fun c hc => List.mem_takeWhile_imp hc,
              h2, fun c hc => List.mem_takeWhile_imp hc,
              Or.inl ⟨rfl, hrest.symm⟩⟩
            conv_lhs => rw [← List.takeWhile_append_dropWhile Char.isDigit l]
            rw [heq]
            congr 1
            rw [List.append_nil]
            conv_lhs => rw [← List.takeWhile_append_dropWhile Char.isDigit r2]
            rw [heq2, List.append_nil]
          · rename_i r4 heq2
            rw [Option.some.injEq, Prod.mk.injEq] at h
            obtain ⟨hv, hrest⟩ := h
            refine ⟨l.takeWhile Char.isDigit, r2.takeWhile Char.isDigit,
              '-' :: rest, ?_, hv.symm, h1,
              fun c hc => List.mem_takeWhile_imp hc,
              h2, fun c hc => List.mem_takeWhile_imp hc, Or.inr rfl⟩
            conv_lhs => rw [← List.takeWhile_append_dropWhile Char.isDigit l]
            rw [heq]
            congr 1
            conv_lhs => rw [← List.takeWhile_append_dropWhile Char.isDigit r2]
            rw [heq2, hrest]
          · exact absurd h (by simp)
      · exact absurd h (by simp)
  · rintro ⟨d1, d2, post, rfl, rfl, hd1ne, hd1d, hd2ne, hd2d, hpost⟩
    have hsplit1 := takeWhile_append_all (p := Char.isDigit)
      (a := d1) (b := '.' :: (d2 ++ post)) hd1d
      (by intro c hc; rw [List.head?_cons, Option.some.injEq] at hc
          rw [← hc]; decide)
    have hbpost : ∀ c, post.head? = some c → Char.isDigit c = false := by
      intro c hc
      rcases hpost with ⟨rfl, _⟩ | rfl
      · simp at hc
      · rw [List.head?_cons, Option.some.injEq] at hc
        rw [← hc]; decide
    have hsplit2 := takeWhile_append_all (p := Char.isDigit)
      (a := d2) (b := post) hd2d hbpost
    simp only [versionMatchHere, hsplit1.1, hsplit1.2, if_neg hd1ne,
      hsplit2.1, hsplit2.2, if_neg hd2ne]
    rcases hpost with ⟨rfl, rfl⟩ | rfl
    · rfl
    · rfl

theorem versionMatchHere_rest {l v rest : List Char}
    (h : versionMatchHere l = some (v, rest)) :
    (∃ s, l = s ++ rest) ∧ rest.length + 3 ≤ l.length := by
  obtain ⟨d1, d2, post, rfl, rfl, hd1ne, _, hd2ne, _, hpost⟩ :=
    versionMatchHere_iff.mp h
  have hd1 : 1 ≤ d1.length := List.length_pos.mpr hd1ne
  have hd2 : 1 ≤ d2.length := List.length_pos.mpr hd2ne
  rcases hpost with ⟨rfl, rfl⟩ | rfl
  · refine ⟨⟨d1 ++ '.' :: (d2 ++ []), by simp⟩, ?_⟩
    simp
    omega
  · refine ⟨⟨d1 ++ '.' :: d2 ++ ['-'], by simp⟩, ?_⟩
    simp
    omega

theorem versionMatchHere_head_digit {l v rest : List Char}
    (h : versionMatchHere l = some (v, rest)) :
    ∃ c cs, v = c :: cs ∧ c.isDigit = true := by
  obtain ⟨d1, d2, post, _, rfl, hd1ne, hd1d, _, _, _⟩ :=
    versionMatchHere_iff.mp h
  cases d1 with
  | nil => exact absurd rfl hd1ne
  | cons c cs =>
    exact ⟨c, cs ++ '.' :: d2, by simp, hd1d c (by simp)⟩

theorem mem_versionScanAll_iff {l v : List Char} :
    v ∈ versionScanAll l ↔
      ∃ a r rest, l = a ++ '-' :: r ∧ versionMatchHere r = some (v, rest) := by
  induction l with
  | nil => simp [versionScanAll]
  | cons c cs ih =>
    simp only [versionScanAll, List.mem_append, ih]
    constructor
    · rintro (hm | ⟨a, r, rest, rfl, hmh⟩)
      · by_cases hc : c = '-'
        · subst hc
          rw [if_pos rfl] at hm
          cases hopt : versionMatchHere cs with
          | none => rw [hopt] at hm; simp at hm
          | some p =>
            obtain ⟨p1, p2⟩ := p
            rw [hopt] at hm
            simp only [Option.map_some', Option.toList_some, List.mem_singleton] at hm
            subst hm
            exact ⟨[], cs, p2, rfl, hopt⟩
        · rw [if_neg hc] at hm; simp at hm
      · exact ⟨c :: a, r, rest, rfl, hmh⟩
    · rintro ⟨a, r, rest, hl, hmh⟩
      cases a with
      | nil =>
        simp only [List.nil_append, List.cons.injEq] at hl
        obtain ⟨rfl, rfl⟩ := hl
        left
        rw [if_pos rfl, hmh]
        simp
      | cons a0 a' =>
        simp only [List.cons_append, List.cons.injEq] at hl
        obtain ⟨rfl, rfl⟩ := hl
        exact Or.inr ⟨a', r, rest, rfl, hmh⟩

theorem versionScan_sub {fuel : ℕ} {l v : List Char} (hf : l.length ≤ fuel)
    (hm : v ∈ versionScan fuel l) :
    ∃ a r rest, l = a ++ '-' :: r ∧ versionMatchHere r = some (v, rest) := by
  induction fuel generalizing l with
  | zero => simp [versionScan] at hm
  | succ fuel ih =>
    cases l with
    | nil => simp [versionScan] at hm
    | cons c cs =>
      have hlen : cs.length ≤ fuel := by
        simp only [List.length_cons] at hf; omega
      simp only [versionScan] at hm
      by_cases hc : c = '-'
      · subst hc
        rw [if_pos rfl] at hm
        cases hopt : versionMatchHere cs with
        | none =>
          rw [hopt] at hm
          obtain ⟨a, r, rest, rfl, hmh⟩ := ih hlen hm
          exact ⟨'-' :: a, r, rest, rfl, hmh⟩
        | some p =>
          rw [hopt] at hm
          rw [List.mem_cons] at hm
          rcases hm with rfl | hm
          · exact ⟨[], cs, p.2, rfl, by rw [hopt]⟩
          · have hopt' : versionMatchHere cs = some (p.1, p.2) := by
              rw [hopt]
            have hrest := versionMatchHere_rest hopt'
            have hplen : p.2.length ≤ fuel := by omega
            obtain ⟨a, r, rest, heq, hmh⟩ := ih hplen hm
            obtain ⟨s, hs⟩ := hrest.1
            refine ⟨'-' :: (s ++ a), r, rest, ?_, hmh⟩
            rw [hs, heq]
            simp
      · rw [if_neg hc] at hm
        obtain ⟨a, r, rest, rfl, hmh⟩ := ih hlen hm
        exact ⟨c :: a, r, rest, rfl, hmh⟩

theorem versionScan_eq_nil_iff {fuel : ℕ} {l : List Char} (hf : l.length ≤ fuel) :
    versionScan fuel l = [] ↔ versionScanAll l = [] := by
  induction fuel generalizing l with
  | zero =>
    cases l with
    | nil => simp [versionScan, versionScanAll]
    | cons c cs => simp at hf
  | succ fuel ih =>
    cases l with
    | nil => simp [versionScan, versionScanAll]
    | cons c cs =>
      have hlen : cs.length ≤ fuel := by
        simp only [List.length_cons] at hf; omega
      simp only [versionScan, versionScanAll]
      by_cases hc : c = '-'
      · subst hc
        rw [if_pos rfl, if_pos rfl]
        cases hopt : versionMatchHere cs with
        | none => simpa using ih hlen
        | some p => simp
      · rw [if_neg hc, if_neg hc]
        simpa using ih hlen

theorem versionFindall_sub {l v : List Char} (hm : v ∈ versionFindall l) :
    v ∈ versionAllMatches l := by
  unfold versionFindall at hm
  unfold versionAllMatches
  cases hopt : versionMatchHere l with
  | none =>
    rw [hopt] at hm
    have hmem : v ∈ versionScanAll l :=
      mem_versionScanAll_iff.mpr (versionScan_sub le_rfl hm)
    simpa using hmem
  | some p =>
    obtain ⟨p1, p2⟩ := p
    rw [hopt] at hm
    have hm' : v = p1 ∨ v ∈ versionScan l.length p2 := List.mem_cons.mp hm
    rcases hm' with rfl | hm'
    · simp
    · have hrest := versionMatchHere_rest hopt
      have hplen : p2.length ≤ l.length := by
        have := hrest.2
        simp only at this
        omega
      obtain ⟨a, r, rest, heq, hmh⟩ := versionScan_sub hplen hm'
      obtain ⟨s, hs⟩ := hrest.1
      have hmem : v ∈ versionScanAll l :=
        mem_versionScanAll_iff.mpr ⟨s ++ a, r, rest, by rw [hs, heq]; simp, hmh⟩
      simp [hmem]

theorem versionFindall_eq_nil_iff (l : List Char) :
    versionFindall l = [] ↔ versionAllMatches l = [] := by
  unfold versionFindall versionAllMatches
  cases hopt : versionMatchHere l with
  | none =>
    simpa using versionScan_eq_nil_iff le_rfl
  | some p => simp

theorem mem_versionAllMatches_iff {l v : List Char} :
    v ∈ versionAllMatches l ↔ IsBoundedVersionSub l v := by
  unfold versionAllMatches IsBoundedVersionSub
  constructor
  · intro hm
    rcases List.mem_append.mp hm with hm' | hm'
    · cases hopt : versionMatchHere l with
      | none => rw [hopt] at hm'; simp at hm'
      | some p =>
        rw [hopt] at hm'
        simp only [Option.map_some', Option.toList_some, List.mem_singleton] at hm'
        have hopt' : versionMatchHere l = some (v, p.2) := by rw [hopt, hm']
        obtain ⟨d1, d2, post, hl, hv, hd1ne, hd1d, hd2ne, hd2d, hpost⟩ :=
          versionMatchHere_iff.mp hopt'
        refine ⟨[], d1, d2, post, by rw [hl]; simp, hv, hd1ne, hd1d, hd2ne, hd2d,
          Or.inl rfl, ?_⟩
        rcases hpost with ⟨rfl, _⟩ | rfl
        · exact Or.inl rfl
        · exact Or.inr ⟨p.2, rfl⟩
    · obtain ⟨a, r, rest, rfl, hmh⟩ := mem_versionScanAll_iff.mp hm'
      obtain ⟨d1, d2, post, hr, hv, hd1ne, hd1d, hd2ne, hd2d, hpost⟩ :=
        versionMatchHere_iff.mp hmh
      refine ⟨a ++ ['-'], d1, d2, post, by rw [hr]; simp, hv, hd1ne, hd1d,
        hd2ne, hd2d, Or.inr ⟨a, rfl⟩, ?_⟩
      rcases hpost with ⟨rfl, _⟩ | rfl
      · exact Or.inl rfl
      · exact Or.inr ⟨rest, rfl⟩
  · rintro ⟨pre, d1, d2, post, rfl, rfl, hd1ne, hd1d, hd2ne, hd2d, hpre, hpost⟩
    have hmh : ∃ rest', versionMatchHere (d1 ++ '.' :: (d2 ++ post))
        = some (d1 ++ '.' :: d2, rest') := by
      rcases hpost with rfl | ⟨post', rfl⟩
      · exact ⟨[], versionMatchHere_iff.mpr
          ⟨d1, d2, [], rfl, rfl, hd1ne, hd1d, hd2ne, hd2d, Or.inl ⟨rfl, rfl⟩⟩⟩
      · exact ⟨post', versionMatchHere_iff.mpr
          ⟨d1, d2, '-' :: post', rfl, rfl, hd1ne, hd1d, hd2ne, hd2d, Or.inr rfl⟩⟩
    obtain ⟨rest', hmh⟩ := hmh
    rcases hpre with rfl | ⟨pre', rfl⟩
    · apply List.mem_append_left
      have hshape : ([] : List Char) ++ (d1 ++ '.' :: d2) ++ post
          = d1 ++ '.' :: (d2 ++ post) := by simp
      rw [hshape, hmh]
      simp
    · apply List.mem_append_right
      refine mem_versionScanAll_iff.mpr ⟨pre', d1 ++ '.' :: (d2 ++ post), rest',
        ?_, hmh⟩
      simp

theorem mem_versionFindall_head_digit {l v : List Char}
    (h : v ∈ versionFindall l) : ∃ c cs, v = c :: cs ∧ c.isDigit = true := by
  have hall := versionFindall_sub h
  rcases List.mem_append.mp hall with hm | hm
  · cases hopt : versionMatchHere l with
    | none => rw [hopt] at hm; simp at hm
    | some p =>
      rw [hopt] at hm
      simp only [Option.map_some', Option.toList_some, List.mem_singleton] at hm
      exact versionMatchHere_head_digit (l := l) (by rw [hopt, hm])
  · obtain ⟨a, r, rest, rfl, hmh⟩ := mem_versionScanAll_iff.mp hm
    exact versionMatchHere_head_digit hmh

/-- Claim C3 (amended): `_extract_ocp_version` returns the last match of
`re.findall`'s non-overlapping left-to-right scan (a hyphen that
right-bounds one match is consumed and cannot left-bound the next);
every value it can return is a bounded dotted-numeric substring of the
name, and it returns `"unknown"` exactly when the name contains no such
bounded substring; the claim's own example still yields `"4.20"`. -/
theorem extract_ocp_version_characterization (job_name : String) :
    (_extract_ocp_version job_name = "unknown" ↔
      ¬ ∃ v, IsBoundedVersionSub job_name.data v)
    ∧ (∀ v, v ∈ versionFindall job_name.data →
        IsBoundedVersionSub job_name.data v)
    ∧ _extract_ocp_version
        "periodic-ci-openshift-release-main-upgrade-from-stable-4.19-to-4.20-e2e-vsphere-ovn"
      = "4.20" := by
  refine ⟨?_, fun v hv => mem_versionAllMatches_iff.mp (versionFindall_sub hv),
    by decide⟩
  constructor
  · intro h
    rintro ⟨v, hbv⟩
    have hvm : v ∈ versionAllMatches job_name.data :=
      mem_versionAllMatches_iff.mpr hbv
    have hne : versionAllMatches job_name.data ≠ [] := by
      intro hnil
      rw [hnil] at hvm
      exact List.not_mem_nil v hvm
    have hfne : versionFindall job_name.data ≠ [] := fun hnil =>
      hne ((versionFindall_eq_nil_iff _).mp hnil)
    unfold _extract_ocp_version at h
    cases hlast : (versionFindall job_name.data).getLast? with
    | none => exact hfne (by simpa using hlast)
    | some w =>
      rw [hlast] at h
      have hw : w = "unknown".data := congrArg String.data h
      have hwin : w ∈ (versionFindall job_name.data).getLast? := by
        rw [hlast]; rfl
      obtain ⟨hne', heqw⟩ := List.mem_getLast?_eq_getLast hwin
      have hmem : w ∈ versionFindall job_name.data := by
        rw [heqw]; exact List.getLast_mem hne'
      obtain ⟨c, cs, hvc, hdig⟩ := mem_versionFindall_head_digit hmem
      have h0 : ('u' : Char) :: "nknown".data = c :: cs := by
        rw [← hvc, hw]
      injection h0 with hc0 _
      rw [← hc0] at hdig
      exact absurd hdig (by decide)
  · intro h
    have hall : versionAllMatches job_name.data = [] := by
      cases hc : versionAllMatches job_name.data with
      | nil => rfl
      | cons x xs =>
        exact absurd ⟨x, mem_versionAllMatches_iff.mp (by rw [hc]; simp)⟩ h
    have hf : versionFindall job_name.data = [] :=
      (versionFindall_eq_nil_iff _).mpr hall
    unfold _extract_ocp_version
    rw [hf]
    rfl

/-- Claim C3 counterexample: in `"x-4.19-4.20"` both `"4.19"` and
`"4.20"` are bounded dotted-numeric substrings and the last is `"4.20"`
(computed by the spec-side `specVersionLastOfAll`), but
`_extract_ocp_version` returns `"4.19"`: `re.findall` consumes the
middle hyphen as the right bound of `"4.19"`, so `"4.20"` has no left
bound left in the non-overlapping scan. -/
theorem version_last_of_all_counterexample :
    _extract_ocp_version "x-4.19-4.20" = "4.19"
    ∧ specVersionLastOfAll "x-4.19-4.20" = "4.20" := by decide

/-- Witness for C3 (amended) at a concrete name and scan element. -/
theorem extract_ocp_version_characterization_witness :
    IsBoundedVersionSub "a-1.2".data "1.2".data :=
  (extract_ocp_version_characterization "a-1.2").2.1 "1.2".data (by decide)

theorem error_search_iff (l : List Char) :
    _ERROR_RE_search l = true ↔ ∃ s t, l = s ++ t ∧ errorMatchAt t = true := by
  induction l with
  | nil =>
    simp only [_ERROR_RE_search]
    constructor
    · intro h; exact ⟨[], [], rfl, h⟩
    · rintro ⟨s, t, h, hm⟩
      rcases List.append_eq_nil.mp h.symm with ⟨rfl, rfl⟩
      exact hm
  | cons c cs ih =>
    simp only [_ERROR_RE_search, Bool.or_eq_true, ih]
    constructor
    · rintro (hm | ⟨s, t, rfl, hm⟩)
      · exact ⟨[], c :: cs, rfl, hm⟩
      · exact ⟨c :: s, t, rfl, hm⟩
    · rintro ⟨s, t, h, hm⟩
      cases s with
      | nil =>
        simp only [List.nil_append] at h
        exact Or.inl (by rw [h]; exact hm)
      | cons a s =>
        simp only [List.cons_append, List.cons.injEq] at h
        obtain ⟨rfl, rfl⟩ := h
        exact Or.inr ⟨s, t, rfl, hm⟩

theorem digit_not_space {c : Char} (h1 : '1' ≤ c) (h9 : c ≤ '9') :
    isPySpace c = false := by
  cases hsp : isPySpace c
  · rfl
  · unfold isPySpace at hsp
    simp only [Bool.or_eq_true, decide_eq_true_eq] at hsp
    rcases hsp with ((((rfl | rfl) | rfl) | rfl) | rfl) | rfl <;>
      exact absurd h1 (by decide)

theorem timedOutAt_iff (t : List Char) :
    timedOutAt t = true ↔
      ∃ d ws u, t = "time".data ++ d ++ ws ++ "out".data ++ u
        ∧ (d = [] ∨ d = ['d']) ∧ ∀ c ∈ ws, isPySpace c = true := by
  constructor
  · intro h
    simp only [timedOutAt, Bool.and_eq_true] at h
    obtain ⟨h1, h2⟩ := h
    obtain ⟨r0, rfl⟩ := (startsWith_iff _ _).mp h1
    have hdrop : ("time".data ++ r0).drop 4 = r0 := by
      simp
    rw [hdrop] at h2
    by_cases hd : r0.head? = some 'd'
    · rw [if_pos hd] at h2
      cases r0 with
      | nil => simp at hd
      | cons c0 rest =>
        rw [List.head?_cons, Option.some.injEq] at hd
        subst hd
        obtain ⟨u, hu⟩ := (startsWith_iff _ _).mp h2
        refine ⟨['d'], rest.takeWhile isPySpace, u, ?_, Or.inr rfl,
          fun c hc => List.mem_takeWhile_imp hc⟩
        simp only [List.tail_cons] at hu
        have hr : rest = rest.takeWhile isPySpace ++ ("out".data ++ u) := by
          conv_lhs => rw [← List.takeWhile_append_dropWhile isPySpace rest]
          rw [hu]
        rw [List.cons_append]
        conv_lhs => rw [hr]
        simp
    · rw [if_neg hd] at h2
      obtain ⟨u, hu⟩ := (startsWith_iff _ _).mp h2
      refine ⟨[], r0.takeWhile isPySpace, u, ?_, Or.inl rfl,
        fun c hc => List.mem_takeWhile_imp hc⟩
      have hr : r0 = r0.takeWhile isPySpace ++ ("out".data ++ u) := by
        conv_lhs => rw [← List.takeWhile_append_dropWhile isPySpace r0]
        rw [hu]
      conv_lhs => rw [hr]
      simp
  · rintro ⟨d, ws, u, rfl, hd, hws⟩
    simp only [timedOutAt, Bool.and_eq_true]
    have hre : "time".data ++ d ++ ws ++ "out".data ++ u
        = "time".data ++ (d ++ (ws ++ ("out".data ++ u))) := by simp
    rw [hre]
    refine ⟨(startsWith_iff _ _).mpr ⟨_, rfl⟩, ?_⟩
    have hdrop : ("time".data ++ (d ++ (ws ++ ("out".data ++ u)))).drop 4
        = d ++ (ws ++ ("out".data ++ u)) := by
      simp
    rw [hdrop]
    have houtws : (ws ++ ("out".data ++ u)).dropWhile isPySpace
        = "out".data ++ u := by
      refine (takeWhile_append_all hws ?_).2
      intro c hc
      rw [show ("out".data ++ u).head? = some 'o' from rfl,
        Option.some.injEq] at hc
      rw [← hc]; decide
    rcases hd with rfl | rfl
    · have hhead : (([] : List Char) ++ (ws ++ ("out".data ++ u))).head?
          ≠ some 'd' := by
        cases ws with
        | nil => simp
        | cons w0 ws' =>
          have hw0 := hws w0 (by simp)
          simp only [List.nil_append, List.cons_append, List.head?_cons]
          intro hcon
          injection hcon with hcon'
          rw [hcon'] at hw0
          exact absurd hw0 (by decide)
      rw [List.nil_append] at hhead ⊢
      rw [if_neg hhead, houtws]
      exact (startsWith_iff _ _).mpr ⟨u, rfl⟩
    · rw [show (['d'] ++ (ws ++ ("out".data ++ u))).head? = some 'd' from rfl]
      rw [if_pos rfl]
      rw [show (['d'] ++ (ws ++ ("out".data ++ u))).tail
          = ws ++ ("out".data ++ u) from rfl]
      rw [houtws]
      exact (startsWith_iff _ _).mpr ⟨u, rfl⟩

theorem exitCodeAt_iff (t : List Char) :
    exitCodeAt t = true ↔
      ∃ ws1 ws2 c u, t = "exit".data ++ ws1 ++ "code".data ++ ws2 ++ c :: u
        ∧ ws1 ≠ [] ∧ (∀ x ∈ ws1, isPySpace x = true)
        ∧ ws2 ≠ [] ∧ (∀ x ∈ ws2, isPySpace x = true)
        ∧ '1' ≤ c ∧ c ≤ '9' := by
  constructor
  · intro h
    simp only [exitCodeAt, Bool.and_eq_true] at h
    obtain ⟨h1, h2, h3, h4, h5⟩ := h
    obtain ⟨r0, rfl⟩ := (startsWith_iff _ _).mp h1
    have hdrop : ("exit".data ++ r0).drop 4 = r0 := by simp
    rw [hdrop] at h2 h3 h4 h5
    have hws1ne : r0.takeWhile isPySpace ≠ [] := by
      intro hnil; rw [hnil] at h2; simp at h2
    obtain ⟨r1, hr1⟩ := (startsWith_iff _ _).mp h3
    rw [hr1] at h4 h5
    have hdrop2 : ("code".data ++ r1).drop 4 = r1 := by simp
    rw [hdrop2] at h4 h5
    have hws2ne : r1.takeWhile isPySpace ≠ [] := by
      intro hnil; rw [hnil] at h4; simp at h4
    cases hdw : r1.dropWhile isPySpace with
    | nil => rw [hdw] at h5; simp at h5
    | cons c u =>
      rw [hdw] at h5
      simp only [Bool.and_eq_true, decide_eq_true_eq] at h5
      obtain ⟨hc1, hc9⟩ := h5
      have hr0eq : r0 = r0.takeWhile isPySpace ++ ("code".data ++ r1) := by
        conv_lhs => rw [← List.takeWhile_append_dropWhile isPySpace r0]
        rw [hr1]
      have hr1eq : r1 = r1.takeWhile isPySpace ++ (c :: u) := by
        conv_lhs => rw [← List.takeWhile_append_dropWhile isPySpace r1]
        rw [hdw]
      refine ⟨r0.takeWhile isPySpace, r1.takeWhile isPySpace, c, u, ?_, hws1ne,
        fun x hx => List.mem_takeWhile_imp hx, hws2ne,
        fun x hx => List.mem_takeWhile_imp hx, hc1, hc9⟩
      conv_lhs => rw [hr0eq, hr1eq]
      simp
  · rintro ⟨ws1, ws2, c, u, rfl, hws1ne, hws1, hws2ne, hws2, hc1, hc9⟩
    simp only [exitCodeAt, Bool.and_eq_true]
    have hre : "exit".data ++ ws1 ++ "code".data ++ ws2 ++ c :: u
        = "exit".data ++ (ws1 ++ ("code".data ++ (ws2 ++ c :: u))) := by simp
    rw [hre]
    have hsplit1 := takeWhile_append_all (p := isPySpace)
      (a := ws1) (b := "code".data ++ (ws2 ++ c :: u)) hws1
      (by intro x hx
          rw [show ("code".data ++ (ws2 ++ c :: u)).head? = some 'c' from rfl,
            Option.some.injEq] at hx
          rw [← hx]; decide)
    have hsplit2 := takeWhile_append_all (p := isPySpace)
      (a := ws2) (b := c :: u) hws2
      (by intro x hx
          rw [List.head?_cons, Option.some.injEq] at hx
          rw [← hx]
          exact digit_not_space hc1 hc9)
    have hdrop : ("exit".data ++ (ws1 ++ ("code".data ++ (ws2 ++ c :: u)))).drop 4
        = ws1 ++ ("code".data ++ (ws2 ++ c :: u)) := by simp
    rw [hdrop, hsplit1.1, hsplit1.2]
    refine ⟨(startsWith_iff _ _).mpr ⟨_, rfl⟩, ?_, ?_⟩
    · cases ws1 with
      | nil => exact absurd rfl hws1ne
      | cons a l => simp
    · have hdrop2 : ("code".data ++ (ws2 ++ c :: u)).drop 4 = ws2 ++ c :: u := by
        simp
      rw [hdrop2, hsplit2.1, hsplit2.2]
      refine ⟨(startsWith_iff _ _).mpr ⟨_, rfl⟩, ?_, ?_⟩
      · cases ws2 with
        | nil => exact absurd rfl hws2ne
        | cons a l => simp
      · simp [hc1, hc9]

/-- Claim C7 (amended): `_ERROR_RE.search` matches a line iff the line
contains one of the exact-casing literals `error`, `ERROR`, `FAIL`,
`FAILED`, `fatal`, `FATAL`, `panic`, `PANIC`, `DeadlineExceeded`,
`could not`, `cannot`, or `time` + optional `d` + optional whitespace +
`out`, or `exit` + whitespace + `code` + whitespace + a nonzero digit;
matching is case-sensitive (the pattern has no `re.IGNORECASE`). -/
theorem error_pattern_characterization (line : List Char) :
    _ERROR_RE_search line = true ↔
      ((∃ w ∈ errorLits, ∃ s u, line = s ++ w ++ u)
       ∨ (∃ s d ws u, line = s ++ "time".data ++ d ++ ws ++ "out".data ++ u
            ∧ (d = [] ∨ d = ['d']) ∧ ∀ c ∈ ws, isPySpace c = true)
       ∨ (∃ s ws1 ws2 c u,
            line = s ++ "exit".data ++ ws1 ++ "code".data ++ ws2 ++ c :: u
            ∧ ws1 ≠ [] ∧ (∀ x ∈ ws1, isPySpace x = true)
            ∧ ws2 ≠ [] ∧ (∀ x ∈ ws2, isPySpace x = true)
            ∧ '1' ≤ c ∧ c ≤ '9')) := by
  rw [error_search_iff]
  constructor
  · rintro ⟨s, t, rfl, hm⟩
    simp only [errorMatchAt, Bool.or_eq_true, List.any_eq_true] at hm
    rcases hm with (⟨w, hw, hsw⟩ | hto) | hec
    · obtain ⟨u, rfl⟩ := (startsWith_iff _ _).mp hsw
      exact Or.inl ⟨w, hw, s, u, by simp⟩
    · obtain ⟨d, ws, u, rfl, hd, hws⟩ := (timedOutAt_iff _).mp hto
      exact Or.inr (Or.inl ⟨s, d, ws, u, by simp, hd, hws⟩)
    · obtain ⟨ws1, ws2, c, u, rfl, hx⟩ := (exitCodeAt_iff _).mp hec
      exact Or.inr (Or.inr ⟨s, ws1, ws2, c, u, by simp, hx⟩)
  · rintro (⟨w, hw, s, u, rfl⟩ | ⟨s, d, ws, u, rfl, hd, hws⟩ |
      ⟨s, ws1, ws2, c, u, rfl, hx⟩)
    · refine ⟨s, w ++ u, by simp, ?_⟩
      simp only [errorMatchAt, Bool.or_eq_true, List.any_eq_true]
      exact Or.inl (Or.inl ⟨w, hw, (startsWith_iff _ _).mpr ⟨u, rfl⟩⟩)
    · refine ⟨s, "time".data ++ d ++ ws ++ "out".data ++ u, by simp, ?_⟩
      simp only [errorMatchAt, Bool.or_eq_true]
      exact Or.inl (Or.inr ((timedOutAt_iff _).mpr ⟨d, ws, u, rfl, hd, hws⟩))
    · refine ⟨s, "exit".data ++ ws1 ++ "code".data ++ ws2 ++ c :: u, by simp, ?_⟩
      simp only [errorMatchAt, Bool.or_eq_true]
      exact Or.inr ((exitCodeAt_iff _).mpr ⟨ws1, ws2, c, u, rfl, hx⟩)

/-- Claim C7 counterexample: the line `"Error"` case-insensitively
contains the keyword "error" (the claim-side `specErrorMatch` accepts
it), but `_ERROR_RE` has no `IGNORECASE` flag and lists only the exact
casings `error|ERROR`, so `re.search` does not match it. -/
theorem error_pattern_case_insensitive_counterexample :
    specErrorMatch "Error".data = true ∧ _ERROR_RE_search "Error".data = false := by
  decide

/-- Witness for C7 (amended) at a concrete matching line. -/
theorem error_pattern_characterization_witness :
    _ERROR_RE_search "boom FAILED".data = true :=
  (error_pattern_characterization "boom FAILED".data).mpr
    (Or.inl ⟨"FAILED".data, by decide, "boom ".data, [], by decide⟩)
